import Mathlib

/-!
Verification of the branch-dependency graph engine of `pr_tree.py`.

The Python source manipulates a mutable object graph of `TreeNode`s
(each node holding a `base_node` back-pointer and an owned `children`
list).  We embed the forest as an inductive tree: the `base_node`
pointer of a node is represented structurally, so that in every
context where the source dereferences `node.base_node` we use the last
element of the node's ancestor chain (which, in a well-formed forest,
is exactly the object the pointer refers to).  Git and GitHub are
external collaborators; the primitives the core calls
(`get_local_sha`, `get_merge_base`, `get_commits`,
`local_branch_exists`) are modelled as fields of a `GitState` record,
and the mutating primitives (`git rebase`, `git push -f`) as emitted
`GitEffect` values.
-/

/-- Snapshot of one PR, as produced by the GitHub collaborator
(`PrInfo` in the source: `pr_number`, `head_branch_name`, `head_sha`,
`base_branch_name`, `base_sha`, `is_open`). -/
structure PrRef where
  number : Nat
  headBranch : String
  headSha : String
  baseBranch : String
  baseSha : String
  isOpen : Bool
deriving DecidableEq, Repr

/-- `ReviewerState` from the source: reviewer login plus review status. -/
structure ReviewerState where
  reviewer : String
  state : String
deriving DecidableEq, Repr

/-- `ReviewerState.to_emoji` from the source. -/
def ReviewerState.to_emoji (r : ReviewerState) : String :=
  if r.state = "APPROVED" then "✅"
  else if r.state = "CHANGES_REQUESTED" then "❌"
  else if r.state = "COMMENTED" then "💬"
  else if r.state = "PENDING" then "⏳"
  else r.state

/-- `LocalCommit` from the source.  `get_message` shells out to
`git log --format=%B -n 1 sha`; since the message of a commit id is
fixed for the duration of a run we carry it as a field. -/
structure LocalCommit where
  sha : String
  message : String
deriving DecidableEq, Repr

/-- `LocalCommit.get_message` from the source. -/
def LocalCommit.get_message (c : LocalCommit) : String := c.message

/-- `TreeNode` from the source.  The `base_node` back-pointer is
represented structurally (a node's parent is the node that owns it in
its `children` list), so only `head_branch`, `pr_info` and `children`
are stored. -/
inductive TreeNode where
  | mk (head_branch : String) (pr_info : Option PrRef) (children : List TreeNode)

def TreeNode.head_branch : TreeNode → String
  | .mk h _ _ => h

def TreeNode.pr_info : TreeNode → Option PrRef
  | .mk _ p _ => p

def TreeNode.children : TreeNode → List TreeNode
  | .mk _ _ c => c

/-- `TreeNode.has_children` from the source. -/
def TreeNode.has_children (t : TreeNode) : Bool :=
  !t.children.isEmpty

mutual

def TreeNode.beq : TreeNode → TreeNode → Bool
  | .mk h1 p1 c1, .mk h2 p2 c2 => h1 == h2 && p1 == p2 && TreeNode.beqList c1 c2

def TreeNode.beqList : List TreeNode → List TreeNode → Bool
  | [], [] => true
  | a :: as, b :: bs => TreeNode.beq a b && TreeNode.beqList as bs
  | _, _ => false

end

instance : BEq TreeNode := ⟨TreeNode.beq⟩

/-- `TreeNode.is_last_sibling` from the source, expressed against the
node's parent (the object its `base_node` pointer refers to): `True`
for a root (no parent), otherwise the node's index in the parent's
children list equals the number of siblings minus one. -/
def is_last_sibling (parent : Option TreeNode) (node : TreeNode) : Bool :=
  match parent with
  | none => true
  | some par => par.children.indexOf node == par.children.length - 1

mutual

/-- `transverse` (the inner worker of `_depth_first` in the source):
yield the node paired with the chain accumulated so far, then recurse
into the children with `chain + [node]`. -/
def transverse : TreeNode → List TreeNode → List (TreeNode × List TreeNode)
  | .mk h p cs, chain =>
    (TreeNode.mk h p cs, chain) :: transverseList cs (chain ++ [TreeNode.mk h p cs])

def transverseList : List TreeNode → List TreeNode → List (TreeNode × List TreeNode)
  | [], _ => []
  | n :: ns, chain => transverse n chain ++ transverseList ns chain

end

/-- `_depth_first` from the source: pre-order traversal of the forest,
pairing every visited node with its ancestor chain. -/
def depth_first (nodes : List TreeNode) : List (TreeNode × List TreeNode) :=
  match nodes with
  | [] => []
  | n :: ns => transverse n [] ++ depth_first ns

/-! ## Branch Graph Builder (`create_tree`) -/

/-- One assignment `d[k] = v` on a Python `dict` represented as an
association list in key-insertion order: an existing key keeps its
position and gets the new value, a new key is appended. -/
def dict_insert (k : String) (v : α) : List (String × α) → List (String × α)
  | [] => [(k, v)]
  | (k', v') :: rest =>
    if k' = k then (k', v) :: rest else (k', v') :: dict_insert k v rest

/-- The single loop of `create_tree` that fills `head_to_base` and
`head_to_pr`: both dicts share the same keys in the same order, so we
build one head-keyed dict of `PrRef`s. -/
def head_map (prs : List PrRef) : List (String × PrRef) :=
  prs.foldl (fun d pr => dict_insert pr.headBranch pr d) []

/-- `head_to_base` from `create_tree`: the head-keyed dict of base
branch names. -/
def head_to_base (prs : List PrRef) : List (String × String) :=
  (head_map prs).map (fun p => (p.1, p.2.baseBranch))

/-- `get_pr` from `create_tree`: `head_to_pr[branch]` if present else
`None`. -/
def get_pr (prs : List PrRef) (branch : String) : Option PrRef :=
  (head_map prs).lookup branch

/-- Keep the first occurrence of every string, dropping later
duplicates — the effect of keying a Python dict comprehension by the
listed value.  `seen` is the set of keys already inserted. -/
def dedup_first_aux (seen : List String) : List String → List String
  | [] => []
  | b :: rest =>
    if b ∈ seen then dedup_first_aux seen rest
    else b :: dedup_first_aux (seen ++ [b]) rest

/-- Keep the first occurrence of every string, dropping later
duplicates. -/
def dedup_first (l : List String) : List String :=
  dedup_first_aux [] l

/-- The root branch names of `create_tree`: every base branch that is
not itself a head, in first-occurrence order (the keys of the `leafs`
dict comprehension). -/
def root_branches (h2b : List (String × String)) : List String :=
  dedup_first ((h2b.map Prod.snd).filter (fun b => (h2b.lookup b).isNone))

/-- The node `create_tree` ends up building for branch `b`: its
`pr_info` is `get_pr(b)` and its children are, in `head_to_base`
iteration order, the heads whose base is `b` (the level-by-level
frontier expansion builds each reachable branch exactly once, at its
unique depth, with exactly these children).  `fuel` bounds the
expansion depth; `create_tree` passes `h2b.length + 1`, which exceeds
the depth of any branch the Python loop can reach, so the cut-off
branch of the recursion is never taken on the nodes actually built. -/
def build_node (h2b : List (String × String)) (gp : String → Option PrRef) :
    Nat → String → TreeNode
  | 0, b => .mk b (gp b) []
  | fuel + 1, b =>
    .mk b (gp b)
      ((h2b.filter (fun e => e.2 = b)).map (fun e => build_node h2b gp fuel e.1))

/-- `create_tree` from the source: turn the PR list into a forest of
`TreeNode`s, returning the list of roots. -/
def create_tree (prs : List PrRef) : List TreeNode :=
  let h2b := head_to_base prs
  (root_branches h2b).map (build_node h2b (get_pr prs) (h2b.length + 1))

/-! ## Closed-Branch Pruner (`trim_closed_prs`) -/

mutual

/-- The decision `trim_closed_prs` takes for one non-root node, after
all of its descendants have been decided (the source guarantees this
by walking the snapshot of the depth-first order in reverse): keep the
node when its PR is present and open, or when it still has untrimmed
children; otherwise detach it (`none`). -/
def trimNode : TreeNode → Option TreeNode
  | .mk h pr cs =>
    let kids := trimChildren cs
    if (match pr with | some p => p.isOpen | none => false) then
      some (.mk h pr kids)
    else if kids.isEmpty then none
    else some (.mk h pr kids)

def trimChildren : List TreeNode → List TreeNode
  | [] => []
  | c :: cs =>
    match trimNode c with
    | some c' => c' :: trimChildren cs
    | none => trimChildren cs

end

/-- `trim_closed_prs` from the source.  Roots are never removed, only
their subtrees are trimmed; the returned list is in the order
`new_roots` is filled, which — walking the depth-first snapshot in
reverse — is the reverse of the input root order. -/
def trim_closed_prs (roots : List TreeNode) : List TreeNode :=
  (roots.map (fun r =>
    match r with
    | .mk h pr cs => TreeNode.mk h pr (trimChildren cs))).reverse

/-! ## Local version-control collaborator -/

/-- The read-only git primitives the core calls, as one record: a run's
local repository state.  `get_commits a b` models
`git log --format=format:%H a..b` and therefore lists the commits
strictly between `a` (exclusive) and `b`, newest first. -/
structure GitState where
  get_local_sha : String → String
  get_merge_base : String → String → String
  get_commits : String → String → List LocalCommit
  local_branch_exists : String → Bool

/-- A mutating git invocation issued by the executor loop of
`update-dependencies`. -/
inductive GitEffect where
  | rebase (ontoBranch : String) (startSha : String) (branch : String)
  | forcePush
deriving DecidableEq, Repr

/-! ## Shared-History Trimmer (`filtered_rebase_start_commit`) -/

/-- The `for base, child in zip(reversed(base_commits),
reversed(child_commits))` loop of `filtered_rebase_start_commit`:
while the messages match, record `child_commits.index(child)`; stop at
the first mismatch. -/
def collectCommon (child_commits : List LocalCommit) :
    List (LocalCommit × LocalCommit) → List Nat
  | [] => []
  | (base, child) :: rest =>
    if base.get_message = child.get_message then
      child_commits.indexOf child :: collectCommon child_commits rest
    else []

/-- `filtered_rebase_start_commit` from the source.  `sorted(...)[0]`
is modelled by `mergeSort` followed by `headD`; the list is non-empty
on that branch, and the subscript into `child_commits` is in range, so
the `getD` default is never used. -/
def filtered_rebase_start_commit (git : GitState)
    (base_branch node_branch : String) : Option String :=
  let merge_point := git.get_merge_base base_branch node_branch
  let base_commits := git.get_commits merge_point base_branch
  let child_commits := git.get_commits merge_point node_branch
  let common_commit_indexes :=
    collectCommon child_commits (base_commits.reverse.zip child_commits.reverse)
  if common_commit_indexes.isEmpty then none
  else
    some ((child_commits.getD
      ((common_commit_indexes.mergeSort (fun a b => a ≤ b)).headD 0)
      ⟨"", ""⟩).sha)

/-! ## Rebase Planner and Executor (`UpdateDependencies.main`) -/

/-- `RebaseStep` from the source. -/
structure RebaseStep where
  base : TreeNode
  base_initial_local_sha : String
  child : TreeNode

/-- The planning loop of `UpdateDependencies.main`, over the
depth-first snapshot of the forest.  For each visited node: roots are
skipped (`node.base_node` is absent exactly when the ancestor chain is
empty); nodes whose ancestor chain does not contain the designated
root branch are skipped; under `delete`, a node whose parent is the
root branch and whose grandparent exists is re-targeted onto the
grandparent; the consistency check compares the local sha of the
node's branch with the PR's recorded head sha and aborts with a fatal
error on mismatch (the source dereferences `node.pr_info`
unconditionally, so a missing PR reference is likewise a fatal
abort). -/
def plan_steps (git : GitState) (root : String)
    (delete filter_similar_titles : Bool) :
    List (TreeNode × List TreeNode) → Except String (List RebaseStep)
  | [] => .ok []
  | (node, ancestry) :: rest =>
    match ancestry.getLast? with
    | none => plan_steps git root delete filter_similar_titles rest
    | some parent =>
      if root ∈ ancestry.map TreeNode.head_branch then
        let base :=
          match (if delete ∧ parent.head_branch = root then
                   ancestry.dropLast.getLast? else none) with
          | some grandparent => grandparent
          | none => parent
        match node.pr_info with
        | none => .error ("Branch " ++ node.head_branch ++ " has no PR")
        | some pr =>
          if git.get_local_sha node.head_branch ≠ pr.headSha then
            .error ("Local and remote positions of branch " ++
              node.head_branch ++ " differ")
          else
            let local_base_sha := git.get_local_sha base.head_branch
            let initial_local_sha :=
              if filter_similar_titles then
                match filtered_rebase_start_commit git base.head_branch
                    node.head_branch with
                | some filtered_start => filtered_start
                | none => local_base_sha
              else local_base_sha
            match plan_steps git root delete filter_similar_titles rest with
            | .ok steps =>
              .ok ({ base := base, base_initial_local_sha := initial_local_sha,
                     child := node } :: steps)
            | .error e => .error e
      else plan_steps git root delete filter_similar_titles rest

/-- The `print("Rebasing", ...)` line of the executor loop. -/
def describe_step (s : RebaseStep) : String :=
  "Rebasing " ++ s.child.head_branch ++ " onto " ++ s.base.head_branch ++
    " starting from " ++ s.base_initial_local_sha

/-- The executor loop of `UpdateDependencies.main`: for every step,
print the step; under `--dry-run`, do nothing else; otherwise run
`git rebase -i --onto base start child` followed by `git push -f` and
print a blank line.  The result is the printed lines paired with the
mutating git invocations issued. -/
def execute_steps (dry_run : Bool) :
    List RebaseStep → List String × List GitEffect
  | [] => ([], [])
  | s :: rest =>
    let tail := execute_steps dry_run rest
    if dry_run then (describe_step s :: tail.1, tail.2)
    else
      (describe_step s :: "" :: tail.1,
       GitEffect.rebase s.base.head_branch s.base_initial_local_sha
           s.child.head_branch :: GitEffect.forcePush :: tail.2)

/-- `UpdateDependencies.main` after the PR fetch: build the forest,
prune it, plan, and execute.  A planning error aborts the run before
any step executes. -/
def update_dependencies_run (git : GitState) (root : String)
    (dry_run delete filter_similar_titles : Bool) (prs : List PrRef) :
    Except String (List String × List GitEffect) :=
  let roots := trim_closed_prs (create_tree prs)
  match plan_steps git root delete filter_similar_titles
      (depth_first roots) with
  | .ok steps => .ok (execute_steps dry_run steps)
  | .error e => .error e

/-! ## Tree Renderer (`Print.__print`) -/

/-- The per-ancestor connector glyphs of one rendered line: `" "` when
the ancestor is the last sibling of its own parent, `"│"` otherwise.
The parent of each chain element is the previous chain element; the
first element is a root. -/
def lead_glyphs : Option TreeNode → List TreeNode → List String
  | _, [] => []
  | parent, p :: rest =>
    (if is_last_sibling parent p then " " else "│") ::
      lead_glyphs (some p) rest

/-- The `line_segments` list of `Print.__print` for a node and its
ancestor chain, minus terminal colouring.  `reviewer_states` models
the reviewer-states dict (keyed by PR number); the source's lookup
into it is only reached for open PRs, whose numbers the caller put in
the dict. -/
def render_segments (git : GitState)
    (reviewer_states : Nat → List ReviewerState)
    (node : TreeNode) (parentage : List TreeNode) : List String :=
  lead_glyphs none parentage ++
  ([if parentage.isEmpty then "─"
    else if is_last_sibling parentage.getLast? node then "└"
    else "├"] ++
   [if node.has_children then "┬ " else "─ "] ++
   [node.head_branch] ++
   match node.pr_info with
   | none => []
   | some pr =>
     (if git.local_branch_exists pr.baseBranch ∧
         git.local_branch_exists node.head_branch then
        [" ",
         if pr.baseSha ≠ git.get_merge_base pr.baseBranch node.head_branch
           then "🌓" else "🌕",
         "->",
         if pr.headSha ≠ git.get_local_sha node.head_branch
           then "🌓" else "🌕"]
      else []) ++
     [" [" ++ toString pr.number ++ "]", " ",
      if pr.isOpen then
        String.intercalate ","
          ((reviewer_states pr.number).map
            (fun rev => rev.reviewer ++ ":" ++ rev.to_emoji))
      else "closed"])

/-- One line of `Print.__print`: `"".join(line_segments)`. -/
def render_line (git : GitState) (reviewer_states : Nat → List ReviewerState)
    (node : TreeNode) (parentage : List TreeNode) : String :=
  String.join (render_segments git reviewer_states node parentage)

/-- `Print.__print` from the source: one rendered line per node, in
depth-first order. -/
def print_tree (git : GitState) (reviewer_states : Nat → List ReviewerState)
    (roots : List TreeNode) : List String :=
  (depth_first roots).map (fun p => render_line git reviewer_states p.1 p.2)

/-! ## Specification-side definitions used to state the claims -/

/-- `Chain r c n` says `c` is the full ancestor path of `n` inside the
tree rooted at `r`: `c` runs from `r` itself down to and including the
immediate parent of `n`, and is empty exactly when `n` is `r`. -/
inductive Chain : TreeNode → List TreeNode → TreeNode → Prop
  | refl (r : TreeNode) : Chain r [] r
  | step {r : TreeNode} {c : List TreeNode} {p n : TreeNode} :
      Chain r c p → n ∈ p.children → Chain r (c ++ [p]) n

mutual

/-- All nodes of a tree, in depth-first order. -/
def nodesOf : TreeNode → List TreeNode
  | .mk h pr cs => TreeNode.mk h pr cs :: nodesOfList cs

def nodesOfList : List TreeNode → List TreeNode
  | [] => []
  | c :: cs => nodesOf c ++ nodesOfList cs

end

/-- All branch names of a tree, in depth-first order. -/
def treeNames (t : TreeNode) : List String :=
  (nodesOf t).map TreeNode.head_branch

/-- All branch names of a forest, in depth-first order. -/
def forestNames (roots : List TreeNode) : List String :=
  (depth_first roots).map (fun p => p.1.head_branch)

/-- A node occurs in a forest when the depth-first traversal visits
it. -/
def node_mem (n : TreeNode) (roots : List TreeNode) : Prop :=
  ∃ c, (n, c) ∈ depth_first roots

/-- Follow the head→base edge map `k` times from a branch. -/
def iterBase (h2b : List (String × String)) : Nat → String → Option String
  | 0, x => some x
  | k + 1, x =>
    match h2b.lookup x with
    | some p => iterBase h2b k p
    | none => none

/-- Number of head→base steps from a branch until the chain leaves the
set of heads (`some 0` for a non-head), or `none` if `fuel` steps do
not suffice. -/
def rootDist (h2b : List (String × String)) : Nat → String → Option Nat
  | 0, x => match h2b.lookup x with | none => some 0 | some _ => none
  | fuel + 1, x =>
    match h2b.lookup x with
    | none => some 0
    | some p => (rootDist h2b fuel p).map (· + 1)

/-- The head→base edge set of a PR list is acyclic: from every head,
the base chain leaves the set of heads in finitely many steps (a
directed cycle would make the chain of each of its members loop
forever instead). -/
def acyclic (prs : List PrRef) : Prop :=
  ∀ h ∈ (head_to_base prs).map Prod.fst,
    (rootDist (head_to_base prs) ((head_to_base prs).length + 1) h).isSome = true

mutual

/-- `P` holds at every node of the tree. -/
def allNodes (P : TreeNode → Prop) : TreeNode → Prop
  | .mk h pr cs => P (.mk h pr cs) ∧ allNodesList P cs

def allNodesList (P : TreeNode → Prop) : List TreeNode → Prop
  | [] => True
  | c :: cs => allNodes P c ∧ allNodesList P cs

end

/-- Every child of the node carries a PR reference. -/
def PrChildrenSome (t : TreeNode) : Prop :=
  ∀ c ∈ t.children, c.pr_info.isSome = true

/-- The base node the planning loop settles on for one in-scope node:
its immediate parent (the last element of the ancestor chain), unless
`delete` is set, the parent is the designated root branch and a
grandparent exists, in which case the grandparent. -/
def plan_base (root : String) (delete : Bool) (parent : TreeNode)
    (ancestry : List TreeNode) : TreeNode :=
  match (if delete ∧ parent.head_branch = root then
           ancestry.dropLast.getLast? else none) with
  | some grandparent => grandparent
  | none => parent

/-- The starting commit the planning loop settles on for one step: the
shared-history trimmer's result under `--filter-similar-titles` when
it yields one, the base branch's current local commit otherwise. -/
def plan_initial (git : GitState) (filter_similar_titles : Bool)
    (base node : TreeNode) : String :=
  if filter_similar_titles then
    match filtered_rebase_start_commit git base.head_branch
        node.head_branch with
    | some filtered_start => filtered_start
    | none => git.get_local_sha base.head_branch
  else git.get_local_sha base.head_branch

/-- Length of the longest common prefix of two lists of strings. -/
def commonPrefixLength : List String → List String → Nat
  | a :: as, b :: bs => if a = b then commonPrefixLength as bs + 1 else 0
  | _, _ => 0

/-! ## Concrete example data -/

/-- PR for branch `X` based on `M`. -/
def prX : PrRef := ⟨1, "X", "shaX", "M", "shaM", true⟩

/-- PR for branch `Y` based on `X`. -/
def prY : PrRef := ⟨2, "Y", "shaY", "X", "shaX", true⟩

/-- PR for branch `Z` based on `Y`. -/
def prZ : PrRef := ⟨3, "Z", "shaZ", "Y", "shaY", true⟩

/-- Node `Z` of the single-chain forest `M→X→Y→Z`. -/
def nodeZ : TreeNode := .mk "Z" (some prZ) []

/-- Node `Y` of the single-chain forest `M→X→Y→Z`. -/
def nodeY : TreeNode := .mk "Y" (some prY) [nodeZ]

/-- Node `X` of the single-chain forest `M→X→Y→Z`. -/
def nodeX : TreeNode := .mk "X" (some prX) [nodeY]

/-- Root node `M` of the single-chain forest `M→X→Y→Z`. -/
def nodeM : TreeNode := .mk "M" none [nodeX]

/-- The single-chain forest `M→X→Y→Z`. -/
def forestMXYZ : List TreeNode := [nodeM]

/-- A local repository in which every branch `b` is at commit
`"sha" ++ b`, agreeing with the recorded PR heads of
`prX`/`prY`/`prZ`, and with no shared commits past any merge base. -/
def gitMXYZ : GitState :=
  { get_local_sha := fun b => "sha" ++ b
    get_merge_base := fun _ _ => "mb"
    get_commits := fun _ _ => []
    local_branch_exists := fun _ => false }

/-- Like `gitMXYZ`, except the local branch `Y` has moved to a commit
that differs from `prY`'s recorded head. -/
def gitBad : GitState :=
  { gitMXYZ with
    get_local_sha := fun b => if b = "Y" then "shaDIVERGED" else "sha" ++ b }

/-- A local repository for the shared-history example: between the
merge base and the `B` tip the messages are `[m0, m1, m2]`
(oldest→newest), between the merge base and any other tip they are
`[m0, m1, m3]`; `get_commits` lists newest first. -/
def gitTrim : GitState :=
  { get_local_sha := fun b => "sha" ++ b
    get_merge_base := fun _ _ => "mb"
    get_commits := fun _ e =>
      if e = "B" then [⟨"b2", "m2"⟩, ⟨"b1", "m1"⟩, ⟨"b0", "m0"⟩]
      else [⟨"c3", "m3"⟩, ⟨"c1", "m1"⟩, ⟨"c0", "m0"⟩]
    local_branch_exists := fun _ => false }

/-- A local repository in which the commit lists on the two sides of
every boundary already differ at their oldest commits (`mA` vs `mB`),
so the shared-history trimmer records no matched position. -/
def gitNoCommon : GitState :=
  { get_local_sha := fun b => "sha" ++ b
    get_merge_base := fun _ _ => "mb"
    get_commits := fun _ e =>
      if e = "X" then [⟨"x0", "mA"⟩] else [⟨"y0", "mB"⟩]
    local_branch_exists := fun _ => false }

/-- Forest `root→A(open PR 1)→B(closed PR 2)` for the pruning
example. -/
def forestC4 : List TreeNode :=
  [.mk "root" none
    [.mk "A" (some ⟨1, "A", "shaA", "root", "shaR", true⟩)
      [.mk "B" (some ⟨2, "B", "shaB", "A", "shaA", false⟩) []]]]

/-- Forest `root→{A→B, C}` (A not last sibling, C last) for the
rendering example. -/
def forestC9 : List TreeNode :=
  [.mk "root" none
    [.mk "A" (some ⟨1, "A", "shaA", "root", "shaR", true⟩)
      [.mk "B" (some ⟨2, "B", "shaB", "A", "shaA", true⟩) []],
     .mk "C" (some ⟨3, "C", "shaC", "root", "shaR", true⟩) []]]

/-! ## Traversal lemmas -/

theorem mem_transverseList {cs ch : List TreeNode}
    {p : TreeNode × List TreeNode} :
    p ∈ transverseList cs ch ↔ ∃ m ∈ cs, p ∈ transverse m ch := by
  induction cs with
  | nil => simp [transverseList]
  | cons c cs ih =>
    simp only [transverseList, List.mem_append, ih, List.mem_cons]
    constructor
    · rintro (h | ⟨m, hm, h⟩)
      · exact ⟨c, Or.inl rfl, h⟩
      · exact ⟨m, Or.inr hm, h⟩
    · rintro ⟨m, rfl | hm, h⟩
      · exact Or.inl h
      · exact Or.inr ⟨m, hm, h⟩

theorem Chain.cons {t m n : TreeNode} {c : List TreeNode}
    (hm : m ∈ t.children) (h : Chain m c n) : Chain t (t :: c) n := by
  induction h with
  | refl => exact Chain.step (Chain.refl t) hm
  | step hc hmem ih => exact Chain.step ih hmem

theorem chain_head_view {t n : TreeNode} {c : List TreeNode}
    (h : Chain t c n) :
    (c = [] ∧ n = t) ∨ ∃ m ∈ t.children, ∃ c', c = t :: c' ∧ Chain m c' n := by
  induction h with
  | refl => exact Or.inl ⟨rfl, rfl⟩
  | step hc hmem ih =>
    right
    rcases ih with ⟨hnil, hpt⟩ | ⟨m, hm, c', heq, hcm⟩
    · subst hnil; subst hpt
      exact ⟨_, hmem, [], rfl, Chain.refl _⟩
    · subst heq
      exact ⟨m, hm, c' ++ [_], by simp, Chain.step hcm hmem⟩

theorem sizeOf_lt_of_mem_children {m : TreeNode} {h : String}
    {pr : Option PrRef} {cs : List TreeNode} (hm : m ∈ cs) :
    sizeOf m < sizeOf (TreeNode.mk h pr cs) := by
  have := List.sizeOf_lt_of_mem hm
  simp only [TreeNode.mk.sizeOf_spec]
  omega

theorem mem_transverse_iff (t : TreeNode) (c0 : List TreeNode)
    (n : TreeNode) (c : List TreeNode) :
    (n, c) ∈ transverse t c0 ↔ ∃ c1, c = c0 ++ c1 ∧ Chain t c1 n := by
  rcases t with ⟨h, p, cs⟩
  rw [transverse]
  constructor
  · intro hmem
    rcases List.mem_cons.mp hmem with heq | hmem'
    · rcases Prod.mk.injEq .. ▸ heq with ⟨h1, h2⟩
      exact ⟨[], by simp [h2], h1 ▸ Chain.refl _⟩
    · rcases mem_transverseList.mp hmem' with ⟨m, hm, hmem2⟩
      rcases (mem_transverse_iff m (c0 ++ [TreeNode.mk h p cs]) n c).mp hmem2
        with ⟨c1, hc, hchain⟩
      exact ⟨TreeNode.mk h p cs :: c1, by simp [hc], Chain.cons hm hchain⟩
  · rintro ⟨c1, rfl, hchain⟩
    rcases chain_head_view hchain with ⟨rfl, rfl⟩ | ⟨m, hm, c', rfl, hcm⟩
    · simp
    · refine List.mem_cons_of_mem _ (mem_transverseList.mpr ⟨m, hm, ?_⟩)
      exact (mem_transverse_iff m (c0 ++ [TreeNode.mk h p cs]) n
        (c0 ++ TreeNode.mk h p cs :: c')).mpr ⟨c', by simp, hcm⟩
termination_by sizeOf t
decreasing_by all_goals exact sizeOf_lt_of_mem_children hm

theorem mem_depth_first_iff {roots : List TreeNode} {n : TreeNode}
    {c : List TreeNode} :
    (n, c) ∈ depth_first roots ↔ ∃ r ∈ roots, Chain r c n := by
  induction roots with
  | nil => simp [depth_first]
  | cons r rs ih =>
    simp only [depth_first, List.mem_append, ih, mem_transverse_iff r [] n c,
      List.nil_append, List.mem_cons]
    constructor
    · rintro (⟨c1, rfl, hchain⟩ | ⟨r', hr', h⟩)
      · exact ⟨r, Or.inl rfl, hchain⟩
      · exact ⟨r', Or.inr hr', h⟩
    · rintro ⟨r', rfl | hr', h⟩
      · exact Or.inl ⟨c, rfl, h⟩
      · exact Or.inr ⟨r', hr', h⟩

/-! ## C8 — the ancestor chain paired by the depth-first traversal -/

/-- C8, counterexample: in the forest `r→A`, whose node `A` has `r` as
its immediate parent (and only strict ancestor), the traversal pairs
`A` with the chain `["r"]` — the chain contains the immediate parent,
so it is not "the list of strict ancestors excluding the immediate
parent" (which would be `[]`). -/
theorem c8_chain_counterexample :
    (depth_first [TreeNode.mk "r" none [TreeNode.mk "A" none []]]).map
        (fun p => (p.1.head_branch, p.2.map TreeNode.head_branch)) =
      [("r", []), ("A", ["r"])] ∧
    (depth_first [TreeNode.mk "r" none [TreeNode.mk "A" none []]]).map
        (fun p => (p.1.head_branch, p.2.map TreeNode.head_branch)) ≠
      [("r", []), ("A", [])] := by
  exact ⟨by decide, by decide⟩

/-- C8 (amended): for every forest and every node visited by the
depth-first traversal, the ancestor chain paired with that node is the
ordered list of all its strict ancestors from the most distant root
down to and *including* the node's immediate parent — `Chain r c n`
holds of exactly the pairs the traversal yields, where `c` runs from
the root `r` to the parent of `n`. -/
theorem c8_chain_amended (roots : List TreeNode) (n : TreeNode)
    (c : List TreeNode) :
    (n, c) ∈ depth_first roots ↔ ∃ r ∈ roots, Chain r c n :=
  mem_depth_first_iff

/-- Closed instance of `c8_chain_amended`: in the forest `r→A`, node
`A` is visited with chain `[r]`, the path from the root to `A`'s
immediate parent. -/
theorem c8_chain_amended_witness :
    (TreeNode.mk "A" none [], [TreeNode.mk "r" none [TreeNode.mk "A" none []]]) ∈
      depth_first [TreeNode.mk "r" none [TreeNode.mk "A" none []]] :=
  (c8_chain_amended _ _ _).mpr
    ⟨TreeNode.mk "r" none [TreeNode.mk "A" none []], by simp,
     Chain.step (Chain.refl _) (by simp [TreeNode.children])⟩

/-! ## C4 — the closed-branch pruning pass -/

theorem trimNode_eq_none_iff (t : TreeNode) :
    trimNode t = none ↔
      (trimChildren t.children = [] ∧
       ∀ p, t.pr_info = some p → p.isOpen = false) := by
  rcases t with ⟨h, pr, cs⟩
  rw [trimNode.eq_def]
  rcases pr with _ | p
  · simp [TreeNode.children, TreeNode.pr_info, List.isEmpty_iff]
  · rcases hopen : p.isOpen with _ | _ <;>
      simp [TreeNode.children, TreeNode.pr_info, List.isEmpty_iff, hopen]

theorem trimNode_eq_some {t t' : TreeNode} (h : trimNode t = some t') :
    t'.head_branch = t.head_branch ∧ t'.pr_info = t.pr_info ∧
      t'.children = trimChildren t.children := by
  rcases t with ⟨hb, pr, cs⟩
  rw [trimNode.eq_def] at h
  dsimp only at h
  split at h
  · cases h
    simp [TreeNode.head_branch, TreeNode.pr_info, TreeNode.children]
  · split at h
    · cases h
    · cases h
      simp [TreeNode.head_branch, TreeNode.pr_info, TreeNode.children]

theorem trim_root_head_branch (r : TreeNode) :
    (match r with
     | .mk h pr cs => TreeNode.mk h pr (trimChildren cs)).head_branch =
      r.head_branch := by
  rcases r with ⟨h, pr, cs⟩; rfl

theorem trim_root_pr_info (r : TreeNode) :
    (match r with
     | .mk h pr cs => TreeNode.mk h pr (trimChildren cs)).pr_info =
      r.pr_info := by
  rcases r with ⟨h, pr, cs⟩; rfl

/-- C4: after the closed-branch pruning pass, a non-root node is
detached exactly when — its descendants having been decided first — it
has no surviving children and its PR reference is absent or closed;
a kept node keeps its branch name and PR reference untouched and its
children are exactly its trimmed children; roots are never removed
(every root survives with name and PR reference intact, the returned
list being in reversed order); and on `root→A(open PR 1)→B(closed PR
2)` the pass removes `B` while `A` survives with zero children. -/
theorem c4_trim_closed_prs :
    (∀ t : TreeNode, trimNode t = none ↔
      (trimChildren t.children = [] ∧
       ∀ p, t.pr_info = some p → p.isOpen = false)) ∧
    (∀ t t' : TreeNode, trimNode t = some t' →
      t'.head_branch = t.head_branch ∧ t'.pr_info = t.pr_info ∧
        t'.children = trimChildren t.children) ∧
    (∀ roots : List TreeNode,
      (trim_closed_prs roots).map TreeNode.head_branch =
        (roots.map TreeNode.head_branch).reverse ∧
      (trim_closed_prs roots).map TreeNode.pr_info =
        (roots.map TreeNode.pr_info).reverse) ∧
    (trim_closed_prs forestC4).map
        (fun t => (depth_first [t]).map
          (fun p => (p.1.head_branch, p.1.children.map TreeNode.head_branch,
                     p.1.pr_info.map PrRef.number))) =
      [[("root", ["A"], none), ("A", [], some 1)]] := by
  refine ⟨trimNode_eq_none_iff, fun t t' h => trimNode_eq_some h, fun roots => ?_, by decide⟩
  constructor
  · rw [trim_closed_prs, List.map_reverse, List.map_map]
    congr 1
    exact List.map_congr_left (fun r _ => trim_root_head_branch r)
  · rw [trim_closed_prs, List.map_reverse, List.map_map]
    congr 1
    exact List.map_congr_left (fun r _ => trim_root_pr_info r)

/-- Closed instance of `c4_trim_closed_prs`: the closed childless leaf
of `forestC4` is detached. -/
theorem c4_trim_closed_prs_witness :
    trimNode (TreeNode.mk "B" (some ⟨2, "B", "shaB", "A", "shaA", false⟩) []) =
      none :=
  (c4_trim_closed_prs.1 _).mpr
    ⟨by rw [TreeNode.children, trimChildren],
     by intro p hp
        rw [TreeNode.pr_info] at hp
        cases hp
        rfl⟩

/-! ## Planner lemmas -/

theorem getLast?_ne_nil {α : Type} {l : List α} {a : α}
    (h : l.getLast? = some a) : l ≠ [] := by
  intro hnil
  subst hnil
  cases h

theorem plan_steps_sound (git : GitState) (root : String)
    (delete filt : Bool) :
    ∀ (l : List (TreeNode × List TreeNode)) (steps : List RebaseStep),
      plan_steps git root delete filt l = .ok steps →
      (steps.map RebaseStep.child).Sublist (l.map Prod.fst) ∧
      ∀ s ∈ steps, ∃ p ∈ l, p.2 ≠ [] ∧
        root ∈ p.2.map TreeNode.head_branch ∧ s.child = p.1 ∧
        ∃ parent, p.2.getLast? = some parent ∧
          s.base = plan_base root delete parent p.2 ∧
          s.base_initial_local_sha = plan_initial git filt s.base p.1 := by
  intro l
  induction l with
  | nil =>
    intro steps h
    rw [plan_steps] at h
    cases h
    exact ⟨List.Sublist.refl _, by simp⟩
  | cons p rest ih =>
    rcases p with ⟨node, anc⟩
    intro steps h
    rw [plan_steps] at h
    rcases hlast : anc.getLast? with _ | parent <;> simp only [hlast] at h
    · rcases ih steps h with ⟨hsub, hmem⟩
      refine ⟨hsub.cons _, fun s hs => ?_⟩
      rcases hmem s hs with ⟨q, hq, hrest⟩
      exact ⟨q, List.mem_cons_of_mem _ hq, hrest⟩
    · by_cases hroot : root ∈ anc.map TreeNode.head_branch
      · rw [if_pos hroot] at h
        rcases hpr : node.pr_info with _ | pr <;> simp only [hpr] at h
        · cases h
        · by_cases hsha : git.get_local_sha node.head_branch ≠ pr.headSha
          · rw [if_pos hsha] at h
            cases h
          · rw [if_neg hsha] at h
            rcases hrec : plan_steps git root delete filt rest
              with e | rest' <;> simp only [hrec] at h
            · cases h
            · cases h
              rcases ih rest' hrec with ⟨hsub, hmem⟩
              constructor
              · exact hsub.cons₂ _
              · intro s hs
                rcases List.mem_cons.mp hs with rfl | hs'
                · refine ⟨(node, anc), List.mem_cons_self _ _,
                    getLast?_ne_nil hlast, hroot, rfl, parent, hlast,
                    rfl, rfl⟩
                · rcases hmem s hs' with ⟨q, hq, hrest⟩
                  exact ⟨q, List.mem_cons_of_mem _ hq, hrest⟩
      · rw [if_neg hroot] at h
        rcases ih steps h with ⟨hsub, hmem⟩
        refine ⟨hsub.cons _, fun s hs => ?_⟩
        rcases hmem s hs with ⟨q, hq, hrest⟩
        exact ⟨q, List.mem_cons_of_mem _ hq, hrest⟩

theorem plan_steps_error_of_mismatch (git : GitState) (root : String)
    (delete filt : Bool) :
    ∀ (l : List (TreeNode × List TreeNode)) (node : TreeNode)
      (anc : List TreeNode) (pr : PrRef),
      (node, anc) ∈ l → anc ≠ [] →
      root ∈ anc.map TreeNode.head_branch → node.pr_info = some pr →
      git.get_local_sha node.head_branch ≠ pr.headSha →
      ∃ e, plan_steps git root delete filt l = .error e := by
  intro l
  induction l with
  | nil =>
    intro node anc pr hmem
    cases hmem
  | cons p rest ih =>
    rcases p with ⟨n0, a0⟩
    intro node anc pr hmem hne hroot hpr hsha
    rw [plan_steps]
    rcases List.mem_cons.mp hmem with heq | hmem'
    · rcases Prod.mk.injEq .. ▸ heq with ⟨rfl, rfl⟩
      rcases hlast : anc.getLast? with _ | parent
      · exact absurd (List.getLast?_eq_none_iff.mp hlast) hne
      · simp only [hlast, if_pos hroot, hpr, if_pos hsha]
        exact ⟨_, rfl⟩
    · rcases ih node anc pr hmem' hne hroot hpr hsha with ⟨e, herr⟩
      rcases hlast : a0.getLast? with _ | parent <;> simp only [hlast]
      · exact ⟨e, herr⟩
      · by_cases hroot0 : root ∈ a0.map TreeNode.head_branch
        · rw [if_pos hroot0]
          rcases hpr0 : n0.pr_info with _ | pr0 <;> simp only [hpr0]
          · exact ⟨_, rfl⟩
          · by_cases hsha0 : git.get_local_sha n0.head_branch ≠ pr0.headSha
            · rw [if_pos hsha0]
              exact ⟨_, rfl⟩
            · rw [if_neg hsha0]
              simp only [herr]
              exact ⟨e, rfl⟩
        · rw [if_neg hroot0]
          exact ⟨e, herr⟩

theorem execute_steps_dry (steps : List RebaseStep) :
    execute_steps true steps = (steps.map describe_step, []) := by
  induction steps with
  | nil => rfl
  | cons s rest ih => simp [execute_steps, ih]

theorem update_dependencies_run_dry (git : GitState) (root : String)
    (delete filt : Bool) (prs : List PrRef) (steps : List RebaseStep)
    (h : plan_steps git root delete filt
      (depth_first (trim_closed_prs (create_tree prs))) = .ok steps) :
    update_dependencies_run git root true delete filt prs =
      .ok (steps.map describe_step, []) := by
  rw [update_dependencies_run]
  simp only [h, execute_steps_dry]

theorem update_dependencies_run_error (git : GitState) (root : String)
    (dry delete filt : Bool) (prs : List PrRef) (e : String)
    (h : plan_steps git root delete filt
      (depth_first (trim_closed_prs (create_tree prs))) = .error e) :
    update_dependencies_run git root dry delete filt prs = .error e := by
  rw [update_dependencies_run]
  simp only [h]

/-! ## C1 — rebase planning on the chain `M→X→Y→Z` -/

/-- C1: on the forest `M→X→Y→Z` with root branch `X`, no deletion and
the shared-history trimmer disabled, planning produces exactly the two
steps `(base=X, child=Y)` then `(base=Y, child=Z)`, each starting from
the base's current local commit; with `delete` the first step is
re-targeted one level up onto `M` while `Z`'s step is unchanged; and
in general every planned step list is a depth-first-order subsequence
of the traversal, roots are skipped, and only nodes whose ancestor
chain contains the root branch produce a step. -/
theorem c1_rebase_planning :
    plan_steps gitMXYZ "X" false false (depth_first forestMXYZ) =
      .ok [⟨nodeX, gitMXYZ.get_local_sha "X", nodeY⟩,
           ⟨nodeY, gitMXYZ.get_local_sha "Y", nodeZ⟩] ∧
    plan_steps gitMXYZ "X" true false (depth_first forestMXYZ) =
      .ok [⟨nodeM, gitMXYZ.get_local_sha "M", nodeY⟩,
           ⟨nodeY, gitMXYZ.get_local_sha "Y", nodeZ⟩] ∧
    ∀ (git : GitState) (root : String) (delete filt : Bool)
      (l : List (TreeNode × List TreeNode)) (steps : List RebaseStep),
      plan_steps git root delete filt l = .ok steps →
      (steps.map RebaseStep.child).Sublist (l.map Prod.fst) ∧
      ∀ s ∈ steps, ∃ p ∈ l, p.2 ≠ [] ∧
        root ∈ p.2.map TreeNode.head_branch ∧ s.child = p.1 ∧
        ∃ parent, p.2.getLast? = some parent ∧
          s.base = plan_base root delete parent p.2 ∧
          s.base_initial_local_sha = plan_initial git filt s.base p.1 :=
  ⟨rfl, rfl, fun git root delete filt l steps h =>
    plan_steps_sound git root delete filt l steps h⟩

/-- Closed instance of the general clause of `c1_rebase_planning` at
the concrete forest: the planned children `[Y, Z]` appear as a
subsequence of the depth-first node order `[M, X, Y, Z]`. -/
theorem c1_rebase_planning_witness :
    List.Sublist [nodeY, nodeZ] ((depth_first forestMXYZ).map Prod.fst) := by
  have h := (c1_rebase_planning.2.2 gitMXYZ "X" false false
    (depth_first forestMXYZ)
    [⟨nodeX, gitMXYZ.get_local_sha "X", nodeY⟩,
     ⟨nodeY, gitMXYZ.get_local_sha "Y", nodeZ⟩] rfl).1
  simpa using h

/-! ## C2 — the per-node consistency check -/

/-- C2: when any in-scope node (visited with a non-empty ancestor
chain containing the root branch) has a local branch commit that
differs from its PR's recorded head commit, planning returns a fatal
error — so the plan carries zero steps — and the whole
update-dependencies run aborts with that error before any rebase or
force-push is issued. -/
theorem c2_consistency_error :
    (∀ (git : GitState) (root : String) (delete filt : Bool)
       (roots : List TreeNode) (node : TreeNode) (anc : List TreeNode)
       (pr : PrRef),
      (node, anc) ∈ depth_first roots → anc ≠ [] →
      root ∈ anc.map TreeNode.head_branch → node.pr_info = some pr →
      git.get_local_sha node.head_branch ≠ pr.headSha →
      ∃ e, plan_steps git root delete filt (depth_first roots) =
        .error e) ∧
    ∀ (git : GitState) (root : String) (dry delete filt : Bool)
      (prs : List PrRef) (e : String),
      plan_steps git root delete filt
        (depth_first (trim_closed_prs (create_tree prs))) = .error e →
      update_dependencies_run git root dry delete filt prs = .error e :=
  ⟨fun git root delete filt roots node anc pr hmem hne hroot hpr hsha =>
    plan_steps_error_of_mismatch git root delete filt
      (depth_first roots) node anc pr hmem hne hroot hpr hsha,
   fun git root dry delete filt prs e h =>
    update_dependencies_run_error git root dry delete filt prs e h⟩

/-- Closed instance of `c2_consistency_error`: with the local branch
`Y` diverged from `prY`'s recorded head, planning over `M→X→Y→Z`
errors. -/
theorem c2_consistency_error_witness :
    ∃ e, plan_steps gitBad "X" false false (depth_first forestMXYZ) =
      .error e := by
  have hdfs : depth_first forestMXYZ =
      [(nodeM, []), (nodeX, [nodeM]), (nodeY, [nodeM, nodeX]),
       (nodeZ, [nodeM, nodeX, nodeY])] := rfl
  refine c2_consistency_error.1 gitBad "X" false false forestMXYZ
    nodeY [nodeM, nodeX] prY ?_ (by simp) (by decide) rfl (by decide)
  rw [hdfs]
  exact List.mem_cons_of_mem _ (List.mem_cons_of_mem _
    (List.mem_cons_self _ _))

/-! ## C5 — dry-run performs no mutating git operation -/

/-- C5: with the dry-run flag set, update-dependencies still performs
planning and all per-node consistency checks (a planning error aborts
the dry run exactly as it aborts a real run), prints every planned
step, and issues no mutating git invocation — the effect list is
empty for every input. -/
theorem c5_dry_run_no_effects :
    (∀ steps : List RebaseStep,
      execute_steps true steps = (steps.map describe_step, [])) ∧
    (∀ (git : GitState) (root : String) (delete filt : Bool)
       (prs : List PrRef) (steps : List RebaseStep),
      plan_steps git root delete filt
        (depth_first (trim_closed_prs (create_tree prs))) = .ok steps →
      update_dependencies_run git root true delete filt prs =
        .ok (steps.map describe_step, [])) ∧
    ∀ (git : GitState) (root : String) (delete filt : Bool)
      (prs : List PrRef) (e : String),
      plan_steps git root delete filt
        (depth_first (trim_closed_prs (create_tree prs))) = .error e →
      ∀ dry : Bool,
        update_dependencies_run git root dry delete filt prs = .error e :=
  ⟨execute_steps_dry,
   fun git root delete filt prs steps h =>
    update_dependencies_run_dry git root delete filt prs steps h,
   fun git root delete filt prs e h dry =>
    update_dependencies_run_error git root dry delete filt prs e h⟩

/-- Closed instance of `c5_dry_run_no_effects`: the dry run over the
PR list building `M→X→Y→Z` with root `X` prints the two planned steps
and issues no git effect. -/
theorem c5_dry_run_no_effects_witness :
    update_dependencies_run gitMXYZ "X" true false false [prX, prY, prZ] =
      .ok (["Rebasing Y onto X starting from shaX",
            "Rebasing Z onto Y starting from shaY"], []) := by
  have h := c5_dry_run_no_effects.2.1 gitMXYZ "X" false false
    [prX, prY, prZ]
    [⟨nodeX, gitMXYZ.get_local_sha "X", nodeY⟩,
     ⟨nodeY, gitMXYZ.get_local_sha "Y", nodeZ⟩] rfl
  simpa using h

/-! ## Shared-history trimmer lemmas -/

theorem commonPrefixLength_le_right (a b : List String) :
    commonPrefixLength a b ≤ b.length := by
  induction a generalizing b with
  | nil => rw [commonPrefixLength.eq_def]; cases b <;> simp
  | cons x xs ih =>
    cases b with
    | nil => rw [commonPrefixLength.eq_def]; simp
    | cons y ys =>
      rw [commonPrefixLength]
      split
      · have := ih ys
        simp only [List.length_cons]
        omega
      · simp

theorem collectCommon_spec (cc : List LocalCommit) :
    ∀ (br cr : List LocalCommit),
      collectCommon cc (br.zip cr) =
        (List.range (commonPrefixLength (br.map LocalCommit.message)
          (cr.map LocalCommit.message))).map
          (fun j => cc.indexOf (cr.getD j ⟨"", ""⟩)) := by
  intro br
  induction br with
  | nil =>
    intro cr
    rw [commonPrefixLength.eq_def]
    cases cr <;> simp [collectCommon]
  | cons b bs ih =>
    intro cr
    cases cr with
    | nil => simp [collectCommon, commonPrefixLength]
    | cons c cs =>
      rw [List.zip_cons_cons, collectCommon, List.map_cons, List.map_cons,
        commonPrefixLength]
      by_cases hmsg : b.message = c.message
      · rw [if_pos (by simpa [LocalCommit.get_message] using hmsg),
          if_pos hmsg, List.range_succ_eq_map, List.map_cons,
          List.getD_cons_zero, List.map_map, ih cs]
        congr 1
      · rw [if_neg (by simpa [LocalCommit.get_message] using hmsg),
          if_neg hmsg]
        simp

theorem headD_mergeSort_min (l : List Nat) (hne : l ≠ []) :
    (l.mergeSort (fun a b => a ≤ b)).headD 0 ∈ l ∧
      ∀ x ∈ l, (l.mergeSort (fun a b => a ≤ b)).headD 0 ≤ x := by
  have hperm := List.mergeSort_perm l (fun a b => a ≤ b)
  have hsorted : List.Sorted (· ≤ ·) (l.mergeSort (fun a b => a ≤ b)) :=
    List.sorted_mergeSort' l
  rcases hms : l.mergeSort (fun a b => a ≤ b) with _ | ⟨a, as⟩
  · rw [hms] at hperm
    exact absurd hperm.symm.eq_nil hne
  · rw [hms] at hperm hsorted
    refine ⟨hperm.mem_iff.mp (List.mem_cons_self a as), fun x hx => ?_⟩
    rcases List.mem_cons.mp (hperm.mem_iff.mpr hx) with rfl | hxs
    · simp
    · simpa using (List.sorted_cons.mp hsorted).1 x hxs

/-- General description of `filtered_rebase_start_commit`: writing `ℓ`
for the number of oldest-first positions at which the two commit lists
carry equal messages before the first mismatch or exhaustion, the
function returns no refinement when `ℓ = 0`, and otherwise the sha of
the child-side commit at oldest-first position `ℓ - 1` (the newest
commonly matched child commit). -/
theorem filtered_rebase_start_commit_spec (git : GitState)
    (base_branch node_branch : String)
    (hnd : (git.get_commits (git.get_merge_base base_branch node_branch)
      node_branch).Nodup) :
    (commonPrefixLength
        ((git.get_commits (git.get_merge_base base_branch node_branch)
          base_branch).reverse.map LocalCommit.message)
        ((git.get_commits (git.get_merge_base base_branch node_branch)
          node_branch).reverse.map LocalCommit.message) = 0 →
      filtered_rebase_start_commit git base_branch node_branch = none) ∧
    (0 < commonPrefixLength
        ((git.get_commits (git.get_merge_base base_branch node_branch)
          base_branch).reverse.map LocalCommit.message)
        ((git.get_commits (git.get_merge_base base_branch node_branch)
          node_branch).reverse.map LocalCommit.message) →
      filtered_rebase_start_commit git base_branch node_branch =
        some (((git.get_commits
            (git.get_merge_base base_branch node_branch)
            node_branch).reverse.getD
          (commonPrefixLength
            ((git.get_commits (git.get_merge_base base_branch node_branch)
              base_branch).reverse.map LocalCommit.message)
            ((git.get_commits (git.get_merge_base base_branch node_branch)
              node_branch).reverse.map LocalCommit.message) - 1)
          ⟨"", ""⟩).sha)) := by
  set mp := git.get_merge_base base_branch node_branch with hmp
  set bc := git.get_commits mp base_branch with hbc
  set cc := git.get_commits mp node_branch with hcc
  set L := commonPrefixLength (bc.reverse.map LocalCommit.message)
    (cc.reverse.map LocalCommit.message) with hL
  have hcoll := collectCommon_spec cc bc.reverse cc.reverse
  rw [← hL] at hcoll
  have hLlen : L ≤ cc.length := by
    have := commonPrefixLength_le_right (bc.reverse.map LocalCommit.message)
      (cc.reverse.map LocalCommit.message)
    rw [← hL] at this
    simpa using this
  constructor
  · intro hzero
    rw [filtered_rebase_start_commit]
    rw [← hmp, ← hbc, ← hcc, hcoll, hzero]
    simp
  · intro hpos
    have hccpos : 0 < cc.length := lt_of_lt_of_le hpos hLlen
    have hidx : ∀ j, j < L →
        cc.indexOf (cc.reverse.getD j ⟨"", ""⟩) = cc.length - 1 - j := by
      intro j hj
      have hb1 : j < cc.reverse.length := by
        simp only [List.length_reverse]
        omega
      rw [List.getD_eq_getElem _ _ hb1, List.getElem_reverse]
      exact List.indexOf_getElem hnd _ _
    have hmap : (List.range L).map
        (fun j => cc.indexOf (cc.reverse.getD j ⟨"", ""⟩)) =
        (List.range L).map (fun j => cc.length - 1 - j) :=
      List.map_congr_left (fun j hj => hidx j (List.mem_range.mp hj))
    rw [hmap] at hcoll
    have hne : (List.range L).map (fun j => cc.length - 1 - j) ≠ [] := by
      simp only [ne_eq, List.map_eq_nil_iff, List.range_eq_nil]
      omega
    have hmin := headD_mergeSort_min _ hne
    set m := (((List.range L).map
      (fun j => cc.length - 1 - j)).mergeSort (fun a b => a ≤ b)).headD 0
      with hm
    have hmem := hmin.1
    rw [List.mem_map] at hmem
    rcases hmem with ⟨j, hj, hjm⟩
    rw [List.mem_range] at hj
    have hjm2 : cc.length - 1 - j = m := hjm
    have hLm : cc.length - L ∈ (List.range L).map
        (fun j => cc.length - 1 - j) := by
      rw [List.mem_map]
      exact ⟨L - 1, List.mem_range.mpr (by omega), by omega⟩
    have hle := hmin.2 _ hLm
    have hmeq : m = cc.length - L := by omega
    rw [filtered_rebase_start_commit]
    rw [← hmp, ← hbc, ← hcc, hcoll]
    rw [if_neg (by simpa using hne)]
    rw [← hm, hmeq]
    have hb2 : L - 1 < cc.reverse.length := by
      simp only [List.length_reverse]
      omega
    have hb3 : cc.length - L < cc.length := by omega
    rw [List.getD_eq_getElem _ _ hb3, List.getD_eq_getElem _ _ hb2,
      List.getElem_reverse]
    have h3 : cc.length - 1 - (L - 1) = cc.length - L := by omega
    simp only [h3]

theorem filtered_none_of_cpl_zero (git : GitState)
    (base_branch node_branch : String)
    (hzero : commonPrefixLength
      ((git.get_commits (git.get_merge_base base_branch node_branch)
        base_branch).reverse.map LocalCommit.message)
      ((git.get_commits (git.get_merge_base base_branch node_branch)
        node_branch).reverse.map LocalCommit.message) = 0) :
    filtered_rebase_start_commit git base_branch node_branch = none := by
  rw [filtered_rebase_start_commit]
  rw [collectCommon_spec _ _ _, hzero]
  simp

/-! ## C6 — lock-step comparison in the Shared-History Trimmer -/

/-- C6: the trimmer walks the two commit lists from their oldest ends
in lock-step by commit message and stops at the first mismatch or
either list's exhaustion — writing `ℓ` for the length of the common
oldest-first message prefix, it returns nothing when `ℓ = 0` and
otherwise the sha of the child-side commit at oldest-first position
`ℓ - 1`; on base messages `[m0,m1,m2]` and child messages `[m0,m1,m3]`
this is the child commit carrying `m1`, not the merge base. -/
theorem c6_shared_history_trimmer (git : GitState)
    (base_branch node_branch : String)
    (hnd : (git.get_commits (git.get_merge_base base_branch node_branch)
      node_branch).Nodup) :
    (commonPrefixLength
        ((git.get_commits (git.get_merge_base base_branch node_branch)
          base_branch).reverse.map LocalCommit.message)
        ((git.get_commits (git.get_merge_base base_branch node_branch)
          node_branch).reverse.map LocalCommit.message) = 0 →
      filtered_rebase_start_commit git base_branch node_branch = none) ∧
    (0 < commonPrefixLength
        ((git.get_commits (git.get_merge_base base_branch node_branch)
          base_branch).reverse.map LocalCommit.message)
        ((git.get_commits (git.get_merge_base base_branch node_branch)
          node_branch).reverse.map LocalCommit.message) →
      filtered_rebase_start_commit git base_branch node_branch =
        some (((git.get_commits
            (git.get_merge_base base_branch node_branch)
            node_branch).reverse.getD
          (commonPrefixLength
            ((git.get_commits (git.get_merge_base base_branch node_branch)
              base_branch).reverse.map LocalCommit.message)
            ((git.get_commits (git.get_merge_base base_branch node_branch)
              node_branch).reverse.map LocalCommit.message) - 1)
          ⟨"", ""⟩).sha)) :=
  filtered_rebase_start_commit_spec git base_branch node_branch hnd

/-- Closed instance of `c6_shared_history_trimmer`: with base-side
messages `[m0,m1,m2]` and child-side messages `[m0,m1,m3]`
(oldest→newest), the refined start point is the child commit `c1`
carrying `m1` — not the merge base `mb`. -/
theorem c6_shared_history_trimmer_witness :
    filtered_rebase_start_commit gitTrim "B" "C" = some "c1" ∧
      "c1" ≠ gitTrim.get_merge_base "B" "C" := by
  constructor
  · have h := (c6_shared_history_trimmer gitTrim "B" "C" (by decide)).2
      (by decide)
    rw [h]
    rfl
  · decide

/-! ## C7 — fallback when the trimmer records no matched position -/

unseal List.merge List.mergeSort in
/-- C7, counterexample: on the forest `M→X→Y→Z` with root `X` and the
trimmer enabled, the boundary `X`/`Y` has no common trailing message,
so the trimmer returns no refinement — and the planned step for `Y`
then starts from `shaX`, the base branch's current local commit, which
is *not* the merge base (`mb`) of the two branches, contradicting the
claimed merge-base fallback. -/
theorem c7_fallback_counterexample :
    filtered_rebase_start_commit gitNoCommon "X" "Y" = none ∧
    plan_steps gitNoCommon "X" false true (depth_first forestMXYZ) =
      .ok [⟨nodeX, "shaX", nodeY⟩, ⟨nodeY, "y0", nodeZ⟩] ∧
    ("shaX" : String) ≠ gitNoCommon.get_merge_base "X" "Y" ∧
    ("shaX" : String) = gitNoCommon.get_local_sha "X" :=
  ⟨rfl, rfl, by decide, rfl⟩

/-- C7 (amended): when the shared-history trimmer records no matched
position (in particular whenever the oldest messages of the two lists
already differ, or either list is empty), it returns no refinement,
and the rebase step's starting point then falls back to the *base
branch's current local commit* — `get_local_sha` of the (possibly
re-targeted) base — not the merge base. -/
theorem c7_fallback_amended :
    (∀ (git : GitState) (base_branch node_branch : String),
      commonPrefixLength
        ((git.get_commits (git.get_merge_base base_branch node_branch)
          base_branch).reverse.map LocalCommit.message)
        ((git.get_commits (git.get_merge_base base_branch node_branch)
          node_branch).reverse.map LocalCommit.message) = 0 →
      filtered_rebase_start_commit git base_branch node_branch = none) ∧
    ∀ (git : GitState) (root : String) (delete : Bool)
      (l : List (TreeNode × List TreeNode)) (steps : List RebaseStep),
      plan_steps git root delete true l = .ok steps →
      ∀ s ∈ steps,
        filtered_rebase_start_commit git s.base.head_branch
          s.child.head_branch = none →
        s.base_initial_local_sha = git.get_local_sha s.base.head_branch := by
  refine ⟨filtered_none_of_cpl_zero, ?_⟩
  intro git root delete l steps h s hs hnone
  rcases (plan_steps_sound git root delete true l steps h).2 s hs with
    ⟨p, _, _, _, hchild, parent, _, _, hinit⟩
  rw [hinit, plan_initial, if_pos rfl, ← hchild, hnone]

unseal List.merge List.mergeSort in
/-- Closed instance of `c7_fallback_amended` at the concrete run of
`c7_fallback_counterexample`: the `Y` step's starting point equals the
base branch's current local commit. -/
theorem c7_fallback_amended_witness :
    RebaseStep.base_initial_local_sha ⟨nodeX, "shaX", nodeY⟩ =
      gitNoCommon.get_local_sha
        (RebaseStep.base ⟨nodeX, "shaX", nodeY⟩).head_branch :=
  c7_fallback_amended.2 gitNoCommon "X" false (depth_first forestMXYZ)
    [⟨nodeX, "shaX", nodeY⟩, ⟨nodeY, "y0", nodeZ⟩] rfl
    ⟨nodeX, "shaX", nodeY⟩ (List.mem_cons_self _ _) rfl

/-! ## C9 — rendered line prefixes -/

theorem string_foldl_append (b : List String) :
    ∀ s : String, b.foldl (fun r t => r ++ t) s =
      s ++ b.foldl (fun r t => r ++ t) "" := by
  induction b with
  | nil => intro s; simp [List.foldl]
  | cons x xs ih =>
    intro s
    rw [List.foldl_cons, List.foldl_cons, ih (s ++ x), ih ("" ++ x)]
    rw [String.empty_append, String.append_assoc]

theorem string_join_append (a b : List String) :
    String.join (a ++ b) = String.join a ++ String.join b := by
  rw [String.join, String.join, String.join, List.foldl_append]
  exact string_foldl_append b _

theorem lead_glyphs_length :
    ∀ (parentage : List TreeNode) (parent : Option TreeNode),
      (lead_glyphs parent parentage).length = parentage.length := by
  intro parentage
  induction parentage with
  | nil => intro parent; rfl
  | cons p rest ih => intro parent; simp [lead_glyphs, ih]

/-- C9, counterexample: in the forest `root→{A→B, C}` with `A` not the
last sibling, `B`'s rendered line is `" │└─ B [2] "` — it begins with
a space (the connector column of the root ancestor, a last sibling),
not with `"│"` as claimed; likewise `C`'s line begins `" └─"`, not
`"└─"` directly. -/
theorem c9_render_counterexample :
    print_tree gitMXYZ (fun _ => []) forestC9 =
      ["─┬ root", " ├┬ A [1] ", " │└─ B [2] ", " └─ C [3] "] ∧
    ((print_tree gitMXYZ (fun _ => []) forestC9).getD 2 "").data.take 3 ≠
      "│└─".data ∧
    ((print_tree gitMXYZ (fun _ => []) forestC9).getD 3 "").data.take 2 ≠
      "└─".data :=
  ⟨by decide, by decide, by decide⟩

/-- C9 (amended): each rendered line starts with one connector glyph
per ancestor (`" "` for an ancestor that is the last sibling of its
own parent — in particular every root — and `"│"` otherwise), then the
node's corner glyph (`"└"`/`"├"`, a `"─"` marker for roots) and its
branch-presence glyph (`"┬"`/`"─"`); so in the example forest `B`'s
line begins `" │└─"` (space for the root, `"│"` for `A`) and `C`'s
line begins `" └─"`. -/
theorem c9_render_amended :
    (∀ (git : GitState) (rs : Nat → List ReviewerState) (node : TreeNode)
       (parentage : List TreeNode),
      (lead_glyphs none parentage).length = parentage.length ∧
      ∃ t, render_line git rs node parentage =
        String.join (lead_glyphs none parentage) ++ t) ∧
    print_tree gitMXYZ (fun _ => []) forestC9 =
      ["─┬ root", " ├┬ A [1] ", " │└─ B [2] ", " └─ C [3] "] ∧
    ((print_tree gitMXYZ (fun _ => []) forestC9).getD 2 "").data.take 4 =
      " │└─".data ∧
    ((print_tree gitMXYZ (fun _ => []) forestC9).getD 3 "").data.take 3 =
      " └─".data := by
  refine ⟨fun git rs node parentage => ⟨lead_glyphs_length parentage none,
    ⟨_, by rw [render_line, render_segments]; exact string_join_append _ _⟩⟩,
    by decide, by decide, by decide⟩

/-! ## Association-list lemmas -/

theorem lookup_eq_none_iff {α : Type} {l : List (String × α)} {b : String} :
    l.lookup b = none ↔ b ∉ l.map Prod.fst := by
  induction l with
  | nil => simp
  | cons kv rest ih =>
    rcases kv with ⟨k, v⟩
    by_cases hk : b = k
    · subst hk
      simp [List.lookup_cons]
    · simp [List.lookup_cons, beq_false_of_ne hk, ih, Ne.symm hk, hk]

theorem lookup_isSome_of_mem_keys {α : Type} {l : List (String × α)}
    {b : String} (h : b ∈ l.map Prod.fst) : (l.lookup b).isSome = true := by
  rcases hl : l.lookup b with _ | v
  · exact absurd (lookup_eq_none_iff.mp hl) (by simpa using h)
  · rfl

theorem lookup_mem {α : Type} {l : List (String × α)} {b : String} {v : α}
    (h : l.lookup b = some v) : (b, v) ∈ l := by
  induction l with
  | nil => cases h
  | cons kv rest ih =>
    rcases kv with ⟨k, w⟩
    by_cases hk : b = k
    · subst hk
      rw [List.lookup_cons] at h
      simp only [beq_self_eq_true] at h
      cases h
      exact List.mem_cons_self _ _
    · rw [List.lookup_cons] at h
      simp only [beq_false_of_ne hk] at h
      exact List.mem_cons_of_mem _ (ih h)

theorem mem_lookup_of_nodup {α : Type} {l : List (String × α)} {b : String}
    {v : α} (hnd : (l.map Prod.fst).Nodup) (h : (b, v) ∈ l) :
    l.lookup b = some v := by
  induction l with
  | nil => cases h
  | cons kv rest ih =>
    rcases kv with ⟨k, w⟩
    rcases List.mem_cons.mp h with heq | hmem
    · cases heq
      rw [List.lookup_cons]
      simp only [beq_self_eq_true]
    · have hk : b ≠ k := by
        rintro rfl
        exact (List.nodup_cons.mp hnd).1
          (by simpa using List.mem_map_of_mem Prod.fst hmem)
      rw [List.lookup_cons]
      simp only [beq_false_of_ne hk]
      exact ih (List.nodup_cons.mp hnd).2 hmem

theorem lookup_map_snd {α β : Type} (g : α → β) (b : String) :
    ∀ (l : List (String × α)),
      (List.map (fun p => (p.1, g p.2)) l).lookup b =
        (l.lookup b).map g := by
  intro l
  induction l with
  | nil => rfl
  | cons kv rest ih =>
    rcases kv with ⟨k, v⟩
    by_cases hk : b = k
    · subst hk
      rw [List.map_cons, List.lookup_cons, List.lookup_cons]
      simp only [beq_self_eq_true]
      rfl
    · rw [List.map_cons, List.lookup_cons, List.lookup_cons]
      simp only [beq_false_of_ne hk]
      exact ih

theorem mem_keys_dict_insert {α : Type} (k : String) (v : α) :
    ∀ (l : List (String × α)) (x : String),
      x ∈ (dict_insert k v l).map Prod.fst ↔ x = k ∨ x ∈ l.map Prod.fst := by
  intro l
  induction l with
  | nil => intro x; simp [dict_insert]
  | cons kv rest ih =>
    rcases kv with ⟨k', v'⟩
    intro x
    rw [dict_insert]
    by_cases hk : k' = k
    · rw [if_pos hk]
      subst hk
      simp only [List.map_cons, List.mem_cons]
      tauto
    · rw [if_neg hk]
      simp only [List.map_cons, List.mem_cons, ih]
      tauto

theorem nodup_keys_dict_insert {α : Type} (k : String) (v : α) :
    ∀ (l : List (String × α)), (l.map Prod.fst).Nodup →
      ((dict_insert k v l).map Prod.fst).Nodup := by
  intro l
  induction l with
  | nil => intro _; simp [dict_insert]
  | cons kv rest ih =>
    rcases kv with ⟨k', v'⟩
    intro hnd
    rcases List.nodup_cons.mp hnd with ⟨hk', hrest⟩
    rw [dict_insert]
    by_cases hk : k' = k
    · rw [if_pos hk]
      subst hk
      simpa using hnd
    · rw [if_neg hk]
      simp only [List.map_cons, List.nodup_cons]
      refine ⟨fun hm => ?_, ih hrest⟩
      rcases (mem_keys_dict_insert k v rest k').mp hm with rfl | hm'
      · exact hk rfl
      · exact hk' hm'

theorem head_map_keys_nodup (prs : List PrRef) :
    ((head_map prs).map Prod.fst).Nodup := by
  rw [head_map]
  suffices h : ∀ (l : List PrRef) (d : List (String × PrRef)),
      (d.map Prod.fst).Nodup →
      ((l.foldl (fun d pr => dict_insert pr.headBranch pr d) d).map
        Prod.fst).Nodup by
    exact h prs [] (by simp)
  intro l
  induction l with
  | nil => intro d hd; simpa using hd
  | cons pr rest ih =>
    intro d hd
    exact ih _ (nodup_keys_dict_insert _ _ _ hd)

theorem head_to_base_keys (prs : List PrRef) :
    (head_to_base prs).map Prod.fst = (head_map prs).map Prod.fst := by
  rw [head_to_base, List.map_map]
  rfl

theorem head_to_base_keys_nodup (prs : List PrRef) :
    ((head_to_base prs).map Prod.fst).Nodup := by
  rw [head_to_base_keys]
  exact head_map_keys_nodup prs

theorem lookup_head_to_base (prs : List PrRef) (b : String) :
    (head_to_base prs).lookup b = (get_pr prs b).map PrRef.baseBranch := by
  rw [head_to_base, get_pr]
  exact lookup_map_snd _ b _

theorem mem_keys_head_map (prs : List PrRef) (x : String) :
    x ∈ (head_map prs).map Prod.fst ↔ x ∈ prs.map PrRef.headBranch := by
  rw [head_map]
  suffices h : ∀ (l : List PrRef) (d : List (String × PrRef)),
      x ∈ ((l.foldl (fun d pr => dict_insert pr.headBranch pr d) d).map
        Prod.fst) ↔ x ∈ d.map Prod.fst ∨ x ∈ l.map PrRef.headBranch by
    simpa using h prs []
  intro l
  induction l with
  | nil => intro d; simp
  | cons pr rest ih =>
    intro d
    rw [List.foldl_cons, ih]
    simp only [mem_keys_dict_insert, List.map_cons, List.mem_cons]
    tauto

/-! ## Builder and pruner node lemmas -/

theorem build_node_head (h2b : List (String × String))
    (gp : String → Option PrRef) (fuel : Nat) (b : String) :
    (build_node h2b gp fuel b).head_branch = b := by
  cases fuel <;> rfl

theorem build_node_pr (h2b : List (String × String))
    (gp : String → Option PrRef) (fuel : Nat) (b : String) :
    (build_node h2b gp fuel b).pr_info = gp b := by
  cases fuel <;> rfl

theorem allNodes_head {P : TreeNode → Prop} {t : TreeNode}
    (h : allNodes P t) : P t := by
  rcases t with ⟨hb, pr, cs⟩
  rw [allNodes] at h
  exact h.1

theorem allNodesList_mem {P : TreeNode → Prop} :
    ∀ {cs : List TreeNode} {c : TreeNode},
      allNodesList P cs → c ∈ cs → allNodes P c := by
  intro cs
  induction cs with
  | nil =>
    intro c _ hc
    cases hc
  | cons d ds ih =>
    intro c h hc
    rw [allNodesList] at h
    rcases List.mem_cons.mp hc with rfl | hc'
    · exact h.1
    · exact ih h.2 hc'

theorem allNodesList_of_forall {P : TreeNode → Prop} :
    ∀ {cs : List TreeNode}, (∀ c ∈ cs, allNodes P c) → allNodesList P cs := by
  intro cs
  induction cs with
  | nil => intro _; rw [allNodesList]; trivial
  | cons d ds ih =>
    intro h
    rw [allNodesList]
    exact ⟨h d (List.mem_cons_self _ _),
      ih (fun c hc => h c (List.mem_cons_of_mem _ hc))⟩

theorem allNodes_of_mem_transverse {P : TreeNode → Prop} :
    ∀ (t : TreeNode), allNodes P t →
      ∀ (c0 : List TreeNode) (n : TreeNode) (c : List TreeNode),
        (n, c) ∈ transverse t c0 → P n := by
  intro t
  rcases t with ⟨hb, pr, cs⟩
  intro h c0 n c hmem
  rw [allNodes] at h
  rw [transverse] at hmem
  rcases List.mem_cons.mp hmem with heq | hmem'
  · rcases Prod.mk.injEq .. ▸ heq with ⟨h1, _⟩
    exact h1 ▸ h.1
  · rcases mem_transverseList.mp hmem' with ⟨m, hm, hmem2⟩
    exact allNodes_of_mem_transverse m (allNodesList_mem h.2 hm) _ n c hmem2
termination_by t => sizeOf t
decreasing_by exact sizeOf_lt_of_mem_children hm

theorem build_node_allNodes (prs : List PrRef) :
    ∀ (fuel : Nat) (b : String),
      allNodes PrChildrenSome
        (build_node (head_to_base prs) (get_pr prs) fuel b) := by
  intro fuel
  induction fuel with
  | zero =>
    intro b
    rw [build_node, allNodes]
    constructor
    · intro c hc
      cases hc
    · rw [allNodesList]
      trivial
  | succ fuel ih =>
    intro b
    rw [build_node, allNodes]
    constructor
    · intro c hc
      rw [TreeNode.children] at hc
      rcases List.mem_map.mp hc with ⟨e, he, rfl⟩
      rw [build_node_pr]
      have hkey : e.1 ∈ (head_map prs).map Prod.fst := by
        rw [← head_to_base_keys]
        exact List.mem_map_of_mem Prod.fst (List.mem_of_mem_filter he)
      rw [get_pr]
      exact lookup_isSome_of_mem_keys hkey
    · exact allNodesList_of_forall (fun c hc => by
        rcases List.mem_map.mp hc with ⟨e, _, rfl⟩
        exact ih e.1)

theorem mem_trimChildren :
    ∀ {cs : List TreeNode} {c' : TreeNode},
      c' ∈ trimChildren cs → ∃ c ∈ cs, trimNode c = some c' := by
  intro cs
  induction cs with
  | nil =>
    intro c' hc
    rw [trimChildren] at hc
    cases hc
  | cons d ds ih =>
    intro c' hc
    rw [trimChildren] at hc
    rcases hd : trimNode d with _ | d' <;> rw [hd] at hc
    · rcases ih hc with ⟨c, hcm, hct⟩
      exact ⟨c, List.mem_cons_of_mem _ hcm, hct⟩
    · rcases List.mem_cons.mp hc with rfl | hc'
      · exact ⟨d, List.mem_cons_self _ _, hd⟩
      · rcases ih hc' with ⟨c, hcm, hct⟩
        exact ⟨c, List.mem_cons_of_mem _ hcm, hct⟩

theorem allNodes_trimNode :
    ∀ (t : TreeNode), allNodes PrChildrenSome t →
      ∀ t', trimNode t = some t' → allNodes PrChildrenSome t' := by
  intro t
  rcases t with ⟨hb, pr, cs⟩
  intro h t' ht
  rw [allNodes] at h
  have hch : ∀ c' ∈ trimChildren cs, allNodes PrChildrenSome c' := by
    intro c' hc'
    rcases mem_trimChildren hc' with ⟨c, hcm, hct⟩
    exact allNodes_trimNode c (allNodesList_mem h.2 hcm) c' hct
  have htop : PrChildrenSome (TreeNode.mk hb pr (trimChildren cs)) := by
    intro c' hc'
    rcases mem_trimChildren (by simpa [TreeNode.children] using hc') with
      ⟨c, hcm, hct⟩
    rw [(trimNode_eq_some hct).2.1]
    exact h.1 c (by simpa [TreeNode.children] using hcm)
  rcases (trimNode_eq_some ht).1, (trimNode_eq_some ht).2.1,
    (trimNode_eq_some ht).2.2 with ⟨hh, hp, hc⟩
  rcases t' with ⟨hb', pr', cs'⟩
  rw [allNodes]
  rw [TreeNode.head_branch] at hh
  rw [TreeNode.pr_info] at hp
  rw [TreeNode.children] at hc
  subst hh
  subst hp
  subst hc
  exact ⟨htop, allNodesList_of_forall hch⟩
termination_by t => sizeOf t
decreasing_by exact sizeOf_lt_of_mem_children hcm

theorem chain_parent {r n : TreeNode} {c : List TreeNode} (h : Chain r c n)
    (hne : c ≠ []) :
    ∃ par c', c = c' ++ [par] ∧ Chain r c' par ∧ n ∈ par.children := by
  cases h with
  | refl => exact absurd rfl hne
  | step hc hm => exact ⟨_, _, rfl, hc, hm⟩

theorem mem_dedup_first_aux :
    ∀ (l seen : List String) (x : String),
      x ∈ dedup_first_aux seen l ↔ x ∈ l ∧ x ∉ seen := by
  intro l
  induction l with
  | nil => intro seen x; simp [dedup_first_aux]
  | cons b rest ih =>
    intro seen x
    rw [dedup_first_aux]
    by_cases hb : b ∈ seen
    · rw [if_pos hb, ih]
      simp only [List.mem_cons]
      constructor
      · rintro ⟨hm, hs⟩
        exact ⟨Or.inr hm, hs⟩
      · rintro ⟨rfl | hm, hs⟩
        · exact absurd hb hs
        · exact ⟨hm, hs⟩
    · rw [if_neg hb]
      simp only [List.mem_cons, ih]
      constructor
      · rintro (rfl | ⟨hm, hs⟩)
        · exact ⟨Or.inl rfl, hb⟩
        · exact ⟨Or.inr hm, fun hx => hs (List.mem_append_left _ hx)⟩
      · rintro ⟨rfl | hm, hs⟩
        · exact Or.inl rfl
        · by_cases hxb : x = b
          · exact Or.inl hxb
          · refine Or.inr ⟨hm, fun hx => ?_⟩
            rcases List.mem_append.mp hx with h1 | h2
            · exact hs h1
            · exact hxb (by simpa using h2)

theorem mem_dedup_first (l : List String) (x : String) :
    x ∈ dedup_first l ↔ x ∈ l := by
  rw [dedup_first, mem_dedup_first_aux]
  simp

theorem nodup_dedup_first_aux :
    ∀ (l seen : List String), (dedup_first_aux seen l).Nodup := by
  intro l
  induction l with
  | nil => intro seen; rw [dedup_first_aux]; exact List.nodup_nil
  | cons b rest ih =>
    intro seen
    rw [dedup_first_aux]
    by_cases hb : b ∈ seen
    · rw [if_pos hb]
      exact ih seen
    · rw [if_neg hb]
      rw [List.nodup_cons]
      refine ⟨fun hm => ?_, ih _⟩
      exact ((mem_dedup_first_aux rest (seen ++ [b]) b).mp hm).2
        (List.mem_append_right _ (by simp))

theorem nodup_dedup_first (l : List String) : (dedup_first l).Nodup :=
  nodup_dedup_first_aux l []

theorem root_branches_spec (h2b : List (String × String)) (b : String) :
    b ∈ root_branches h2b ↔
      b ∈ h2b.map Prod.snd ∧ h2b.lookup b = none := by
  rw [root_branches, mem_dedup_first, List.mem_filter]
  simp [Option.isNone_iff_eq_none]

theorem create_tree_mem {prs : List PrRef} {r : TreeNode}
    (h : r ∈ create_tree prs) :
    ∃ b ∈ root_branches (head_to_base prs),
      r = build_node (head_to_base prs) (get_pr prs)
        ((head_to_base prs).length + 1) b := by
  rw [create_tree] at h
  rcases List.mem_map.mp h with ⟨b, hb, rfl⟩
  exact ⟨b, hb, rfl⟩

theorem create_tree_root_invariant (prs : List PrRef) :
    ∀ r ∈ create_tree prs,
      r.pr_info = none ∧ allNodes PrChildrenSome r := by
  intro r hr
  rcases create_tree_mem hr with ⟨b, hb, rfl⟩
  constructor
  · rw [build_node_pr, get_pr]
    refine lookup_eq_none_iff.mpr ?_
    rw [← head_to_base_keys]
    exact lookup_eq_none_iff.mp ((root_branches_spec _ b).mp hb).2
  · exact build_node_allNodes prs _ b

theorem trim_root_invariant (prs : List PrRef) :
    ∀ r' ∈ trim_closed_prs (create_tree prs),
      r'.pr_info = none ∧ allNodes PrChildrenSome r' := by
  intro r' hr'
  rw [trim_closed_prs] at hr'
  rcases List.mem_map.mp (List.mem_reverse.mp hr') with ⟨r, hr, rfl⟩
  rcases create_tree_root_invariant prs r hr with ⟨hpr, hall⟩
  rcases r with ⟨hb, pr, cs⟩
  rw [TreeNode.pr_info] at hpr
  rw [allNodes] at hall
  constructor
  · rw [TreeNode.pr_info]
    exact hpr
  · rw [allNodes]
    constructor
    · intro c' hc'
      rcases mem_trimChildren (by simpa [TreeNode.children] using hc') with
        ⟨c, hcm, hct⟩
      rw [(trimNode_eq_some hct).2.1]
      exact hall.1 c (by simpa [TreeNode.children] using hcm)
    · refine allNodesList_of_forall (fun c' hc' => ?_)
      rcases mem_trimChildren hc' with ⟨c, hcm, hct⟩
      exact allNodes_trimNode c (allNodesList_mem hall.2 hcm) c' hct

theorem forest_pr_invariant {roots : List TreeNode}
    (h : ∀ r ∈ roots, r.pr_info = none ∧ allNodes PrChildrenSome r) :
    ∀ p ∈ depth_first roots,
      (p.2 = [] → p.1.pr_info = none) ∧
      (p.2 ≠ [] → p.1.pr_info.isSome = true) := by
  rintro ⟨n, c⟩ hp
  rcases mem_depth_first_iff.mp hp with ⟨r, hr, hchain⟩
  constructor
  · rintro rfl
    rcases chain_head_view hchain with ⟨_, h2⟩ | ⟨m, _, c', hceq, _⟩
    · rw [h2]
      exact (h r hr).1
    · cases hceq
  · intro hne
    rcases chain_parent hchain hne with ⟨par, c', rfl, hcp, hmem⟩
    have hpar : PrChildrenSome par :=
      allNodes_of_mem_transverse r (h r hr).2 [] par c'
        ((mem_transverse_iff r [] par c').mpr ⟨c', by simp, hcp⟩)
    exact hpar n hmem

/-! ## C10 — PR references on roots and non-roots -/

/-- C10: in every forest the Branch Graph Builder returns, a root node
carries no PR reference and every non-root node carries one; the same
holds after closed-branch pruning, so the planner's consistency check
(which reads `node.pr_info` of an in-scope, hence non-root, node)
never dereferences an absent PR reference. -/
theorem c10_pr_reference_invariant (prs : List PrRef) :
    (∀ p ∈ depth_first (create_tree prs),
      (p.2 = [] → p.1.pr_info = none) ∧
      (p.2 ≠ [] → p.1.pr_info.isSome = true)) ∧
    (∀ p ∈ depth_first (trim_closed_prs (create_tree prs)),
      (p.2 = [] → p.1.pr_info = none) ∧
      (p.2 ≠ [] → p.1.pr_info.isSome = true)) :=
  ⟨forest_pr_invariant (create_tree_root_invariant prs),
   forest_pr_invariant (trim_root_invariant prs)⟩

/-- Closed instance of `c10_pr_reference_invariant` on the PR list
building `M→X→Y→Z`: the root `M` has no PR reference and the non-root
`Y` has one. -/
theorem c10_pr_reference_invariant_witness :
    TreeNode.pr_info nodeM = none ∧
      (TreeNode.pr_info nodeY).isSome = true := by
  have h := c10_pr_reference_invariant [prX, prY, prZ]
  have hdfs : depth_first (create_tree [prX, prY, prZ]) =
      [(nodeM, []), (nodeX, [nodeM]), (nodeY, [nodeM, nodeX]),
       (nodeZ, [nodeM, nodeX, nodeY])] := rfl
  constructor
  · exact (h.1 (nodeM, []) (by rw [hdfs]; exact List.mem_cons_self _ _)).1 rfl
  · exact (h.1 (nodeY, [nodeM, nodeX]) (by
      rw [hdfs]
      exact List.mem_cons_of_mem _ (List.mem_cons_of_mem _
        (List.mem_cons_self _ _)))).2 (by simp)

/-! ## Base-chain lemmas for the builder -/

theorem iterBase_add (h2b : List (String × String)) :
    ∀ (i j : Nat) (x : String),
      iterBase h2b (i + j) x = (iterBase h2b i x).bind (iterBase h2b j) := by
  intro i
  induction i with
  | zero =>
    intro j x
    rw [Nat.zero_add]
    rfl
  | succ i ih =>
    intro j x
    rw [Nat.succ_add]
    show (match h2b.lookup x with
      | some p => iterBase h2b (i + j) p
      | none => none) =
      ((match h2b.lookup x with
        | some p => iterBase h2b i p
        | none => none) : Option String).bind (iterBase h2b j)
    rcases hl : h2b.lookup x with _ | p <;> simp only
    · rfl
    · exact ih j p

theorem iterBase_one (h2b : List (String × String)) (x : String) :
    iterBase h2b 1 x = h2b.lookup x := by
  show (match h2b.lookup x with
    | some p => iterBase h2b 0 p
    | none => none) = h2b.lookup x
  rcases hl : h2b.lookup x with _ | p <;> rfl

theorem rootDist_of_lookup_none (h2b : List (String × String)) {x : String}
    (hl : h2b.lookup x = none) (f : Nat) : rootDist h2b f x = some 0 := by
  cases f <;> rw [rootDist, hl]

theorem lookup_none_of_rootDist_zero (h2b : List (String × String))
    {x : String} {f : Nat} (h : rootDist h2b f x = some 0) :
    h2b.lookup x = none := by
  rcases hl : h2b.lookup x with _ | p
  · rfl
  · exfalso
    cases f with
    | zero =>
      rw [rootDist] at h
      simp only [hl] at h
      exact Option.noConfusion h
    | succ f' =>
      rw [rootDist] at h
      simp only [hl] at h
      rcases hd : rootDist h2b f' p with _ | m
      · simp only [hd, Option.map] at h
        exact Option.noConfusion h
      · simp only [hd, Option.map] at h
        exact Nat.noConfusion (Option.some.inj h)

theorem rootDist_succ_elim (h2b : List (String × String)) {x : String}
    {f n : Nat} (h : rootDist h2b f x = some (n + 1)) :
    ∃ p f', f = f' + 1 ∧ h2b.lookup x = some p ∧
      rootDist h2b f' p = some n := by
  cases f with
  | zero =>
    rw [rootDist] at h
    rcases hl : h2b.lookup x with _ | p
    · simp only [hl] at h
      exact Nat.noConfusion (Option.some.inj h)
    · simp only [hl] at h
      exact Option.noConfusion h
  | succ f' =>
    rw [rootDist] at h
    rcases hl : h2b.lookup x with _ | p
    · simp only [hl] at h
      exact Nat.noConfusion (Option.some.inj h)
    · simp only [hl] at h
      rcases hd : rootDist h2b f' p with _ | m
      · simp only [hd, Option.map] at h
        exact Option.noConfusion h
      · simp only [hd, Option.map] at h
        have hm : m = n := by
          have := Option.some.inj h
          omega
        subst hm
        exact ⟨p, f', rfl, rfl, hd⟩

theorem rootDist_mono (h2b : List (String × String)) :
    ∀ (f : Nat) (x : String) (n : Nat) (g : Nat),
      rootDist h2b f x = some n → f ≤ g → rootDist h2b g x = some n := by
  intro f
  induction f with
  | zero =>
    intro x n g h _
    rw [rootDist] at h
    rcases hl : h2b.lookup x with _ | p
    · simp only [hl] at h
      cases Option.some.inj h
      exact rootDist_of_lookup_none h2b hl g
    · simp only [hl] at h
      exact Option.noConfusion h
  | succ f ih =>
    intro x n g h hfg
    rw [rootDist] at h
    rcases hl : h2b.lookup x with _ | p
    · simp only [hl] at h
      cases Option.some.inj h
      exact rootDist_of_lookup_none h2b hl g
    · simp only [hl] at h
      rcases hd : rootDist h2b f p with _ | m
      · simp only [hd, Option.map] at h
        exact Option.noConfusion h
      · simp only [hd, Option.map] at h
        have hn : n = m + 1 := (Option.some.inj h).symm
        subst hn
        rcases g with _ | g'
        · omega
        · rw [rootDist]
          simp only [hl]
          rw [ih p m g' hd (by omega)]
          rfl

theorem rootDist_unique (h2b : List (String × String)) {x : String}
    {f g n m : Nat} (hf : rootDist h2b f x = some n)
    (hg : rootDist h2b g x = some m) : n = m := by
  have h1 := rootDist_mono h2b f x n (f + g) hf (by omega)
  have h2 := rootDist_mono h2b g x m (f + g) hg (by omega)
  rw [h1] at h2
  cases h2
  rfl

theorem dist_iter (h2b : List (String × String)) :
    ∀ (i : Nat) (x : String) (n : Nat),
      (∃ f, rootDist h2b f x = some n) → i ≤ n →
      ∃ y, iterBase h2b i x = some y ∧
        ∃ g, rootDist h2b g y = some (n - i) := by
  intro i
  induction i with
  | zero =>
    intro x n hd _
    exact ⟨x, rfl, by simpa using hd⟩
  | succ i ih =>
    intro x n hd hle
    rcases hd with ⟨f, hf⟩
    rcases n with _ | n'
    · omega
    · rcases rootDist_succ_elim h2b hf with ⟨p, f', _, hl, hd'⟩
      rcases ih p n' ⟨f', hd'⟩ (by omega) with ⟨y, hy, g, hg⟩
      refine ⟨y, ?_, g, ?_⟩
      · rw [iterBase, hl]
        exact hy
      · have heq : n' + 1 - (i + 1) = n' - i := by omega
        rw [heq]
        exact hg

theorem iterBase_none_of_gt (h2b : List (String × String)) {x : String}
    {n : Nat} (hd : ∃ f, rootDist h2b f x = some n) :
    ∀ i, n < i → iterBase h2b i x = none := by
  intro i hi
  rcases dist_iter h2b n x n hd (le_refl n) with ⟨y, hy, g, hg⟩
  rw [Nat.sub_self] at hg
  have hln := lookup_none_of_rootDist_zero h2b hg
  have hdecomp : i = n + (i - n - 1 + 1) := by omega
  rw [hdecomp, iterBase_add, hy]
  show iterBase h2b (i - n - 1 + 1) y = none
  rw [iterBase, hln]

theorem dist_of_iter (h2b : List (String × String)) {x y : String}
    {i n : Nat} (hd : ∃ f, rootDist h2b f x = some n)
    (hit : iterBase h2b i x = some y) :
    i ≤ n ∧ ∃ g, rootDist h2b g y = some (n - i) := by
  by_cases hle : i ≤ n
  · rcases dist_iter h2b i x n hd hle with ⟨y', hy', hg⟩
    rw [hit] at hy'
    cases hy'
    exact ⟨hle, hg⟩
  · rw [iterBase_none_of_gt h2b hd i (by omega)] at hit
    cases hit

theorem reaches_eq_of_dist_eq (h2b : List (String × String))
    {y a b : String} {ka kb na : Nat}
    (ha : iterBase h2b ka y = some a) (hb : iterBase h2b kb y = some b)
    (hda : ∃ f, rootDist h2b f a = some na)
    (hdb : ∃ f, rootDist h2b f b = some na) : a = b := by
  rcases Nat.le_total ka kb with hle | hle
  · have hdecomp : kb = ka + (kb - ka) := by omega
    rw [hdecomp, iterBase_add, ha] at hb
    have hstep : iterBase h2b (kb - ka) a = some b := hb
    rcases dist_of_iter h2b hda hstep with ⟨hle2, g, hg⟩
    have heq := rootDist_unique h2b hg hdb.choose_spec
    have hzero : kb - ka = 0 := by omega
    rw [hzero] at hstep
    cases hstep
    rfl
  · have hdecomp : ka = kb + (ka - kb) := by omega
    rw [hdecomp, iterBase_add, hb] at ha
    have hstep : iterBase h2b (ka - kb) b = some a := ha
    rcases dist_of_iter h2b hdb hstep with ⟨hle2, g, hg⟩
    have heq := rootDist_unique h2b hg hda.choose_spec
    have hzero : ka - kb = 0 := by omega
    rw [hzero] at hstep
    cases hstep
    rfl

theorem rootDist_le_keys (h2b : List (String × String)) {x : String}
    {n f : Nat} (hd : rootDist h2b f x = some n) : n ≤ h2b.length := by
  set F : Fin n → String := fun i => (iterBase h2b i x).getD "" with hF
  have hFval : ∀ i : Fin n, iterBase h2b i x = some (F i) := by
    intro i
    rcases dist_iter h2b i x n ⟨f, hd⟩ (by omega) with ⟨y, hy, _⟩
    rw [hF]
    simp only [hy]
    rfl
  have hFmem : ∀ i : Fin n, F i ∈ (h2b.map Prod.fst).toFinset := by
    intro i
    rcases dist_of_iter h2b ⟨f, hd⟩ (hFval i) with ⟨_, g, hg⟩
    have hpos : n - (i : Nat) ≠ 0 := by omega
    rcases hn' : n - (i : Nat) with _ | m
    · exact absurd hn' hpos
    · rw [hn'] at hg
      rcases rootDist_succ_elim h2b hg with ⟨p, _, _, hl, _⟩
      rw [List.mem_toFinset]
      by_contra hmem
      rw [lookup_eq_none_iff.mpr hmem] at hl
      cases hl
  have hFinj : ∀ i j : Fin n, F i = F j → i = j := by
    intro i j hij
    rcases dist_of_iter h2b ⟨f, hd⟩ (hFval i) with ⟨hi, gi, hgi⟩
    rcases dist_of_iter h2b ⟨f, hd⟩ (hFval j) with ⟨hj, gj, hgj⟩
    rw [hij] at hgi
    have huniq := rootDist_unique h2b hgi hgj
    have hvi : (i : Nat) = (j : Nat) := by omega
    exact Fin.ext hvi
  have hcard : (Finset.univ : Finset (Fin n)).card ≤
      (h2b.map Prod.fst).toFinset.card :=
    Finset.card_le_card_of_injOn F (fun i _ => hFmem i)
      (fun i _ j _ h => hFinj i j h)
  simp only [Finset.card_univ, Fintype.card_fin] at hcard
  have hfin : (h2b.map Prod.fst).toFinset.card ≤ h2b.length := by
    have := List.toFinset_card_le (h2b.map Prod.fst)
    simpa using this
  omega

/-! ## Tree-name lemmas for the builder -/

theorem mem_nodesOfList :
    ∀ {cs : List TreeNode} {n : TreeNode},
      n ∈ nodesOfList cs ↔ ∃ c ∈ cs, n ∈ nodesOf c := by
  intro cs
  induction cs with
  | nil =>
    intro n
    rw [nodesOfList]
    simp
  | cons c cs ih =>
    intro n
    rw [nodesOfList]
    simp only [List.mem_append, ih, List.mem_cons]
    constructor
    · rintro (h | ⟨c', hc', h⟩)
      · exact ⟨c, Or.inl rfl, h⟩
      · exact ⟨c', Or.inr hc', h⟩
    · rintro ⟨c', rfl | hc', h⟩
      · exact Or.inl h
      · exact Or.inr ⟨c', hc', h⟩

theorem treeNames_build_zero (h2b : List (String × String))
    (gp : String → Option PrRef) (b : String) :
    treeNames (build_node h2b gp 0 b) = [b] := by
  rw [build_node, treeNames, nodesOf, nodesOfList]
  rfl

theorem mem_treeNames_iff {t : TreeNode} {y : String} :
    y ∈ treeNames t ↔ ∃ m ∈ nodesOf t, m.head_branch = y := by
  rw [treeNames, List.mem_map]

theorem mem_treeNames_build_succ (h2b : List (String × String))
    (gp : String → Option PrRef) (f : Nat) (b : String) (y : String) :
    y ∈ treeNames (build_node h2b gp (f + 1) b) ↔
      y = b ∨ ∃ e ∈ h2b.filter (fun e => e.2 = b),
        y ∈ treeNames (build_node h2b gp f e.1) := by
  rw [build_node, treeNames, nodesOf, List.map_cons]
  rw [TreeNode.head_branch]
  simp only [List.mem_cons, List.mem_map, mem_nodesOfList]
  constructor
  · rintro (rfl | ⟨m, ⟨c, hc, hmc⟩, rfl⟩)
    · exact Or.inl rfl
    · rcases hc with ⟨e, he, rfl⟩
      exact Or.inr ⟨e, he, mem_treeNames_iff.mpr ⟨m, hmc, rfl⟩⟩
  · rintro (rfl | ⟨e, he, hy⟩)
    · exact Or.inl rfl
    · rcases mem_treeNames_iff.mp hy with ⟨m, hm, rfl⟩
      exact Or.inr ⟨m, ⟨build_node h2b gp f e.1, ⟨e, he, rfl⟩, hm⟩, rfl⟩

theorem mem_treeNames_build (h2b : List (String × String))
    (gp : String → Option PrRef)
    (hknd : (h2b.map Prod.fst).Nodup) :
    ∀ (fuel : Nat) (b : String) (y : String),
      y ∈ treeNames (build_node h2b gp fuel b) →
      ∃ k, iterBase h2b k y = some b := by
  intro fuel
  induction fuel with
  | zero =>
    intro b y hy
    rw [treeNames_build_zero] at hy
    rcases List.mem_singleton.mp hy with rfl
    exact ⟨0, rfl⟩
  | succ f ih =>
    intro b y hy
    rcases (mem_treeNames_build_succ h2b gp f b y).mp hy with rfl | ⟨e, he, hy'⟩
    · exact ⟨0, rfl⟩
    · rcases ih e.1 y hy' with ⟨k, hk⟩
      refine ⟨k + 1, ?_⟩
      rw [iterBase_add, hk]
      show iterBase h2b 1 e.1 = some b
      rw [iterBase_one]
      rcases e with ⟨e1, e2⟩
      have hsnd : e2 = b := by simpa using (List.mem_filter.mp he).2
      subst hsnd
      exact mem_lookup_of_nodup hknd (List.mem_of_mem_filter he)

theorem treeNames_build_of_iterBase (h2b : List (String × String))
    (gp : String → Option PrRef) :
    ∀ (k : Nat) (x b : String) (fuel : Nat),
      iterBase h2b k x = some b → k < fuel →
      x ∈ treeNames (build_node h2b gp fuel b) := by
  intro k
  induction k with
  | zero =>
    intro x b fuel hx hf
    cases Option.some.inj hx
    rcases fuel with _ | f
    · omega
    · exact (mem_treeNames_build_succ h2b gp f x x).mpr (Or.inl rfl)
  | succ k ih =>
    intro x b fuel hx hf
    rw [iterBase_add] at hx
    rcases hit : iterBase h2b k x with _ | h' <;> rw [hit] at hx
    · cases hx
    · rw [Option.some_bind, iterBase_one] at hx
      rcases fuel with _ | f
      · omega
      · refine (mem_treeNames_build_succ h2b gp f b x).mpr (Or.inr ?_)
        refine ⟨(h', b), ?_, ih x h' f hit (by omega)⟩
        rw [List.mem_filter]
        exact ⟨lookup_mem hx, by simp⟩

theorem filter_base_lookup (h2b : List (String × String))
    (hknd : (h2b.map Prod.fst).Nodup) {b : String} {e : String × String}
    (he : e ∈ h2b.filter (fun e => e.2 = b)) : h2b.lookup e.1 = some b := by
  rcases e with ⟨e1, e2⟩
  have hsnd : e2 = b := by simpa using (List.mem_filter.mp he).2
  subst hsnd
  exact mem_lookup_of_nodup hknd (List.mem_of_mem_filter he)

theorem nodesOfList_names :
    ∀ (cs : List TreeNode),
      (nodesOfList cs).map TreeNode.head_branch =
        (cs.map treeNames).flatten := by
  intro cs
  induction cs with
  | nil => rw [nodesOfList]; rfl
  | cons c cs ih =>
    rw [nodesOfList, List.map_append, ih, List.map_cons, List.flatten_cons,
      treeNames]

theorem treeNames_build_succ_eq (h2b : List (String × String))
    (gp : String → Option PrRef) (f : Nat) (b : String) :
    treeNames (build_node h2b gp (f + 1) b) =
      b :: ((h2b.filter (fun e => e.2 = b)).map
        (fun e => treeNames (build_node h2b gp f e.1))).flatten := by
  rw [build_node, treeNames, nodesOf, List.map_cons, TreeNode.head_branch]
  congr 1
  rw [nodesOfList_names, List.map_map]
  rfl

theorem treeNames_build_nodup (h2b : List (String × String))
    (gp : String → Option PrRef)
    (hknd : (h2b.map Prod.fst).Nodup) :
    ∀ (fuel : Nat) (b : String),
      (∃ n f, rootDist h2b f b = some n) →
      (treeNames (build_node h2b gp fuel b)).Nodup := by
  intro fuel
  induction fuel with
  | zero =>
    intro b _
    rw [treeNames_build_zero]
    simp
  | succ f ih =>
    intro b hd
    rcases hd with ⟨nb, fb, hdb⟩
    rw [treeNames_build_succ_eq, List.nodup_cons]
    constructor
    · intro hb
      rw [List.mem_flatten] at hb
      rcases hb with ⟨l, hl, hbl⟩
      rcases List.mem_map.mp hl with ⟨e, he, rfl⟩
      rcases mem_treeNames_build h2b gp hknd f e.1 b hbl with ⟨k, hk⟩
      have hself : iterBase h2b (k + 1) b = some b := by
        rw [iterBase_add, hk, Option.some_bind, iterBase_one]
        exact filter_base_lookup h2b hknd he
      rcases dist_of_iter h2b ⟨fb, hdb⟩ hself with ⟨hle, g, hg⟩
      have huniq := rootDist_unique h2b hg hdb
      omega
    · rw [List.nodup_flatten]
      constructor
      · intro l hl
        rcases List.mem_map.mp hl with ⟨e, he, rfl⟩
        have hlk := filter_base_lookup h2b hknd he
        have hde : rootDist h2b (fb + 1) e.1 = some (nb + 1) := by
          rw [rootDist]
          simp only [hlk, hdb, Option.map]
        exact ih e.1 ⟨nb + 1, fb + 1, hde⟩
      · rw [List.pairwise_map]
        have hkeys : (h2b.filter (fun e => e.2 = b)).Pairwise
            (fun e1 e2 => e1.1 ≠ e2.1) := by
          have hsub : ((h2b.filter (fun e => e.2 = b)).map Prod.fst).Sublist
              (h2b.map Prod.fst) := (List.filter_sublist _).map _
          have hnd2 := hknd.sublist hsub
          exact List.pairwise_map.mp hnd2
        refine List.Pairwise.imp_of_mem ?_ hkeys
        intro e1 e2 he1 he2 hne
        intro y hy1 hy2
        rcases mem_treeNames_build h2b gp hknd f e1.1 y hy1 with ⟨k1, hk1⟩
        rcases mem_treeNames_build h2b gp hknd f e2.1 y hy2 with ⟨k2, hk2⟩
        have hlk1 := filter_base_lookup h2b hknd he1
        have hlk2 := filter_base_lookup h2b hknd he2
        have hd1 : rootDist h2b (fb + 1) e1.1 = some (nb + 1) := by
          rw [rootDist]
          simp only [hlk1, hdb, Option.map]
        have hd2 : rootDist h2b (fb + 1) e2.1 = some (nb + 1) := by
          rw [rootDist]
          simp only [hlk2, hdb, Option.map]
        exact hne (reaches_eq_of_dist_eq h2b hk1 hk2 ⟨fb + 1, hd1⟩
          ⟨fb + 1, hd2⟩)

mutual

theorem transverse_map_fst :
    ∀ (t : TreeNode) (c0 : List TreeNode),
      (transverse t c0).map Prod.fst = nodesOf t
  | .mk h p cs, c0 => by
    rw [transverse, nodesOf, List.map_cons,
      transverseList_map_fst cs (c0 ++ [TreeNode.mk h p cs])]

theorem transverseList_map_fst :
    ∀ (cs : List TreeNode) (c0 : List TreeNode),
      (transverseList cs c0).map Prod.fst = nodesOfList cs
  | [], _ => by rw [transverseList, nodesOfList]; rfl
  | c :: cs, c0 => by
    rw [transverseList, nodesOfList, List.map_append,
      transverse_map_fst c c0, transverseList_map_fst cs c0]

end

theorem depth_first_map_fst :
    ∀ (roots : List TreeNode),
      (depth_first roots).map Prod.fst = (roots.map nodesOf).flatten := by
  intro roots
  induction roots with
  | nil => rfl
  | cons r rs ih =>
    rw [depth_first, List.map_append, transverse_map_fst r [], ih,
      List.map_cons, List.flatten_cons]

theorem forestNames_eq (roots : List TreeNode) :
    forestNames roots = (roots.map treeNames).flatten := by
  rw [forestNames]
  have h1 : (depth_first roots).map (fun p => p.1.head_branch) =
      ((depth_first roots).map Prod.fst).map TreeNode.head_branch := by
    rw [List.map_map]
    rfl
  rw [h1, depth_first_map_fst, List.map_flatten, List.map_map]
  rfl

theorem countP_flatten_eq_one :
    ∀ (L : List (List String)) (y : String), L.flatten.Nodup →
      (∃ l ∈ L, y ∈ l) → L.countP (fun l => y ∈ l) = 1 := by
  intro L
  induction L with
  | nil =>
    intro y _ hy
    rcases hy with ⟨l, hl, _⟩
    cases hl
  | cons l L ih =>
    intro y hnd hy
    rw [List.flatten_cons, List.nodup_append] at hnd
    rcases hnd with ⟨hndl, hndL, hdisj⟩
    by_cases hyl : y ∈ l
    · rw [List.countP_cons_of_pos _ _ (by simpa using hyl)]
      have hzero : L.countP (fun l => y ∈ l) = 0 := by
        rw [List.countP_eq_zero]
        intro l' hl' hyl'
        exact hdisj hyl (List.mem_flatten.mpr ⟨l', hl', by simpa using hyl'⟩)
      omega
    · rw [List.countP_cons_of_neg _ _ (by simpa using hyl)]
      rcases hy with ⟨l', hl', hyl'⟩
      rcases List.mem_cons.mp hl' with rfl | hl''
      · exact absurd hyl' hyl
      · exact ih y hndL ⟨l', hl'', hyl'⟩

/-! ## C3 — the forest built by create_tree -/

theorem create_tree_eq (prs : List PrRef) :
    create_tree prs = (root_branches (head_to_base prs)).map
      (build_node (head_to_base prs) (get_pr prs)
        ((head_to_base prs).length + 1)) := by
  rw [create_tree]

theorem forestNames_create_tree (prs : List PrRef) :
    forestNames (create_tree prs) =
      ((root_branches (head_to_base prs)).map
        (fun r => treeNames (build_node (head_to_base prs) (get_pr prs)
          ((head_to_base prs).length + 1) r))).flatten := by
  rw [create_tree_eq, forestNames_eq, List.map_map]
  rfl

theorem root_branches_dist (prs : List PrRef) {r : String}
    (hr : r ∈ root_branches (head_to_base prs)) :
    ∃ f, rootDist (head_to_base prs) f r = some 0 :=
  ⟨0, rootDist_of_lookup_none _
    ((root_branches_spec (head_to_base prs) r).mp hr).2 0⟩

theorem create_tree_names_nodup (prs : List PrRef) :
    (forestNames (create_tree prs)).Nodup := by
  have hknd := head_to_base_keys_nodup prs
  rw [forestNames_create_tree, List.nodup_flatten]
  constructor
  · intro l hl
    rcases List.mem_map.mp hl with ⟨r, hr, rfl⟩
    exact treeNames_build_nodup _ _ hknd _ r ⟨0, root_branches_dist prs hr⟩
  · rw [List.pairwise_map]
    have hroots : (root_branches (head_to_base prs)).Nodup := by
      rw [root_branches]
      exact nodup_dedup_first _
    refine List.Pairwise.imp_of_mem ?_ hroots
    intro r1 r2 hr1 hr2 hne y hy1 hy2
    rcases mem_treeNames_build _ _ hknd _ r1 y hy1 with ⟨k1, hk1⟩
    rcases mem_treeNames_build _ _ hknd _ r2 y hy2 with ⟨k2, hk2⟩
    exact hne (reaches_eq_of_dist_eq _ hk1 hk2 (root_branches_dist prs hr1)
      (root_branches_dist prs hr2))

theorem create_tree_names_mem_of_head (prs : List PrRef) (hA : acyclic prs)
    {h : String} (hm : h ∈ prs.map PrRef.headBranch) :
    h ∈ forestNames (create_tree prs) := by
  have hknd := head_to_base_keys_nodup prs
  have hkey : h ∈ (head_to_base prs).map Prod.fst := by
    rw [head_to_base_keys]
    exact (mem_keys_head_map prs h).mpr hm
  rw [acyclic] at hA
  have hsome := hA h hkey
  rcases Option.isSome_iff_exists.mp hsome with ⟨n, hdn⟩
  have hnL : n ≤ (head_to_base prs).length := rootDist_le_keys _ hdn
  rcases n with _ | n'
  · exact absurd (lookup_none_of_rootDist_zero _ hdn)
      (by
        intro hnone
        exact (lookup_eq_none_iff.mp hnone) hkey)
  · rcases dist_iter _ n' h (n' + 1) ⟨_, hdn⟩ (by omega) with ⟨w, hw, g, hgw⟩
    have hg1 : n' + 1 - n' = 1 := by omega
    rw [hg1] at hgw
    rcases rootDist_succ_elim _ hgw with ⟨r, g', _, hlw, hdr0⟩
    have hit : iterBase (head_to_base prs) (n' + 1) h = some r := by
      rw [iterBase_add, hw, Option.some_bind, iterBase_one, hlw]
    have hlr : (head_to_base prs).lookup r = none :=
      lookup_none_of_rootDist_zero _ hdr0
    have hrmem : r ∈ root_branches (head_to_base prs) := by
      rw [root_branches_spec]
      exact ⟨List.mem_map_of_mem Prod.snd (lookup_mem hlw), hlr⟩
    have htree : h ∈ treeNames (build_node (head_to_base prs) (get_pr prs)
        ((head_to_base prs).length + 1) r) :=
      treeNames_build_of_iterBase _ _ (n' + 1) h r _ hit (by omega)
    rw [forestNames_create_tree, List.mem_flatten]
    exact ⟨_, List.mem_map_of_mem _ hrmem, htree⟩

/-- C3: for every PR list whose head→base edge set is acyclic, the
forest `create_tree` returns contains each branch name at most once
(so every node has a unique ancestor chain to its root), contains
exactly one node for each distinct head branch name in the input, and
every forest node lies in exactly one of the returned root trees. -/
theorem c3_create_tree_forest (prs : List PrRef) (hA : acyclic prs) :
    (forestNames (create_tree prs)).Nodup ∧
    (∀ h, h ∈ prs.map PrRef.headBranch →
      (forestNames (create_tree prs)).count h = 1) ∧
    (∀ y, y ∈ forestNames (create_tree prs) →
      (create_tree prs).countP (fun t => decide (y ∈ treeNames t)) = 1) := by
  have hnodup := create_tree_names_nodup prs
  refine ⟨hnodup, ?_, ?_⟩
  · intro h hm
    exact List.count_eq_one_of_mem hnodup
      (create_tree_names_mem_of_head prs hA hm)
  · intro y hy
    have h1 : (create_tree prs).countP (fun t => decide (y ∈ treeNames t)) =
        ((create_tree prs).map treeNames).countP (fun l => decide (y ∈ l)) := by
      rw [List.countP_map]
      rfl
    rw [h1]
    refine countP_flatten_eq_one _ y ?_ ?_
    · rw [← forestNames_eq]
      exact hnodup
    · rw [← List.mem_flatten, ← forestNames_eq]
      exact hy

/-- Closed instance of `c3_create_tree_forest` on the acyclic PR list
building `M→X→Y→Z`: the head branch `Y` appears as exactly one node of
the returned forest. -/
theorem c3_create_tree_forest_witness :
    (forestNames (create_tree [prX, prY, prZ])).count "Y" = 1 :=
  (c3_create_tree_forest [prX, prY, prZ] (by rw [acyclic]; decide)).2.1 "Y" (by decide)
